import Mathlib

/-!
Verification development for the avada-translator segment
extraction / reinjection engine (src/segments.py) and the
translation-integrity validator with its batch retry loop
(src/translate.py).

Documents are modelled as `List Char` (Python `str` is a sequence of
code points and all offsets in the source are code-point indices).
Regular-expression scanning in the source uses only patterns whose
backtracking behaviour is deterministic, so each scan is embedded as a
direct recursive scanner; the embedding of each pattern is documented
at its definition.  Python `\w` and `str.lower()` are modelled on the
ASCII range (the only range the source's fixed tokens exercise).
-/

/-- Python word character test for the regex word-boundary assertion
`\b` (restricted to the ASCII range of Python's `\w`). -/
def isWordChar (c : Char) : Bool :=
  c.isAlphanum || c = '_'

/-- Test whether list `p` is an initial prefix of list `s`. -/
def startsWith : List Char → List Char → Bool
  | [], _ => true
  | _ :: _, [] => false
  | p :: ps, c :: cs => if p = c then startsWith ps cs else false

/-- Index of the first occurrence of (non-empty) pattern `pat` in `s`,
scanning left to right; `none` when `pat` occurs nowhere. -/
def firstOcc (pat : List Char) : List Char → Option Nat
  | [] => none
  | c :: rest =>
    if startsWith pat (c :: rest) then some 0
    else (firstOcc pat rest).map (· + 1)

/-- Substring membership: Python `pat in s` for non-empty `pat`. -/
def containsSub (s pat : List Char) : Bool :=
  (firstOcc pat s).isSome

/-- The slice `s[a:b]` of a Python string (indices clamp, as in Python). -/
def pySlice (s : List Char) (a b : Nat) : List Char :=
  (s.drop a).take (b - a)

/-- Lemma: a successful `startsWith` is exactly a decomposition. -/
theorem startsWith_iff (p s : List Char) :
    startsWith p s = true ↔ ∃ t, s = p ++ t := by
  induction p generalizing s with
  | nil => simp [startsWith]
  | cons a ps ih =>
    cases s with
    | nil => simp [startsWith]
    | cons c cs =>
      simp only [startsWith]
      split
      case isTrue h =>
        subst h
        rw [ih]
        constructor
        · rintro ⟨t, rfl⟩; exact ⟨t, rfl⟩
        · rintro ⟨t, ht⟩
          exact ⟨t, by simpa using ht⟩
      case isFalse h =>
        constructor
        · intro hfalse; cases hfalse
        · rintro ⟨t, ht⟩
          apply absurd _ h
          exact (List.cons.injEq .. ▸ ht).1.symm

/-- Lemma: a found occurrence decomposes the string. -/
theorem firstOcc_some (pat s : List Char) (j : Nat)
    (h : firstOcc pat s = some j) :
    ∃ t, s.drop j = pat ++ t := by
  induction s generalizing j with
  | nil => simp [firstOcc] at h
  | cons c rest ih =>
    simp only [firstOcc] at h
    split at h
    case isTrue hs =>
      cases h
      simpa using (startsWith_iff pat (c :: rest)).1 hs
    case isFalse hs =>
      cases hfo : firstOcc pat rest with
      | none => rw [hfo] at h; simp at h
      | some j0 =>
        rw [hfo] at h
        simp at h
        subst h
        simpa using ih j0 hfo

/-- Length bound for a found occurrence. -/
theorem firstOcc_le (pat s : List Char) (j : Nat)
    (h : firstOcc pat s = some j) : j + pat.length ≤ s.length := by
  induction s generalizing j with
  | nil => simp [firstOcc] at h
  | cons c rest ih =>
    simp only [firstOcc] at h
    split at h
    case isTrue hs =>
      cases h
      obtain ⟨t, ht⟩ := (startsWith_iff pat (c :: rest)).1 hs
      have := congrArg List.length ht
      simp at this
      simp
      omega
    case isFalse hs =>
      cases hfo : firstOcc pat rest with
      | none => rw [hfo] at h; simp at h
      | some j0 =>
        rw [hfo] at h
        simp at h
        subst h
        have := ih j0 hfo
        simp
        omega

/-! ## The pattern TITLE_ATTR_RX

The source pattern is `\btitle="([^"]*)"` (src/segments.py line 26).
A match at a position requires a word boundary before the literal
`title="`, then the capture group runs (greedily, which for a class
excluding the closing quote means: up to the first quote) to the next
`"`.  `searchTitleAux` scans left to right carrying the previous
character (for the boundary test) and returns the decomposition
(prefix before the match, capture group, suffix after the match). -/

/-- The seven literal characters of the token before the capture. -/
def TQ : List Char := ['t', 'i', 't', 'l', 'e', '=', '"']

/-- Boundary test of the `\b` assertion before a word character:
satisfied at the string start or after a non-word character. -/
def bOk : Option Char → Bool
  | none => true
  | some c => !isWordChar c

/-- Split `s` at its first double quote: `s = g ++ quote :: post` with
`g` quote-free; `none` when `s` has no quote (the greedy class
`[^"]*` then finds no closing quote and the occurrence fails). -/
def splitAtQuote : List Char → Option (List Char × List Char)
  | [] => none
  | c :: rest =>
    if c = '"' then some ([], rest)
    else (splitAtQuote rest).map (fun p => (c :: p.1, p.2))

/-- Scan for the first match of `TITLE_ATTR_RX`; `prev` is the
character before the current position (`none` at the string start). -/
def searchTitleAux (prev : Option Char) : List Char →
    Option (List Char × List Char × List Char)
  | [] => none
  | c :: rest =>
    if bOk prev ∧ startsWith TQ (c :: rest) then
      match splitAtQuote ((c :: rest).drop 7) with
      | some (g, post) => some ([], g, post)
      | none =>
        (searchTitleAux (some c) rest).map (fun r => (c :: r.1, r.2.1, r.2.2))
    else
      (searchTitleAux (some c) rest).map (fun r => (c :: r.1, r.2.1, r.2.2))

/-- Model of `TITLE_ATTR_RX.search(s)` on a standalone string. -/
def searchTitle (s : List Char) : Option (List Char × List Char × List Char) :=
  searchTitleAux none s

/-! ## Decimal rendering (Python `str` on int) -/

/-- Digit accumulation with explicit fuel, so that evaluation reduces
in the kernel.  `natDigitsAux (n+1) n []` renders `n` in decimal. -/
def natDigitsAux : Nat → Nat → List Char → List Char
  | 0, _, acc => acc
  | fuel + 1, n, acc =>
    let d := Char.ofNat (48 + n % 10)
    if n < 10 then d :: acc
    else natDigitsAux fuel (n / 10) (d :: acc)

/-- Python `str(n)` for a natural number. -/
def natStr (n : Nat) : List Char := natDigitsAux (n + 1) n []

/-- Python `str(i)` for an integer (a minus sign before the digits). -/
def intStr : Int → List Char
  | Int.ofNat n => natStr n
  | Int.negSucc m => '-' :: natStr (m + 1)

/-- Decimal decoder, the left inverse used to prove `natStr` injective. -/
def decodeDec (l : List Char) : Nat :=
  l.foldl (fun a c => a * 10 + (c.toNat - 48)) 0

/-! ## UTF-8 (Python `str.encode("utf-8")`)

Bytes are represented as natural numbers below 256.  Arithmetic
(division / remainder by powers of two) is used instead of bit
operations so that `omega` can reason about the equations. -/

/-- UTF-8 encoding of one code point. -/
def utf8Char (c : Char) : List Nat :=
  let n := c.toNat
  if n < 128 then [n]
  else if n < 2048 then [192 + n / 64, 128 + n % 64]
  else if n < 65536 then
    [224 + n / 4096, 128 + n / 64 % 64, 128 + n % 64]
  else
    [240 + n / 262144, 128 + n / 4096 % 64, 128 + n / 64 % 64, 128 + n % 64]

/-- UTF-8 encoding of a string. -/
def utf8 : List Char → List Nat
  | [] => []
  | c :: rest => utf8Char c ++ utf8 rest

/-! ## SHA-1 (Python `hashlib.sha1`)

Words are natural numbers kept below 2^32 by explicit remainders. -/

/-- Left rotation of a 32-bit word by `s` places (`0 < s < 32`). -/
def rotl (s w : Nat) : Nat :=
  (w * 2 ^ s + w / 2 ^ (32 - s)) % 4294967296

/-- Big-endian 8-byte rendering of the bit length. -/
def lenBytes (ml : Nat) : List Nat :=
  [ml / 2 ^ 56 % 256, ml / 2 ^ 48 % 256, ml / 2 ^ 40 % 256,
   ml / 2 ^ 32 % 256, ml / 2 ^ 24 % 256, ml / 2 ^ 16 % 256,
   ml / 2 ^ 8 % 256, ml % 256]

/-- SHA-1 padding: append 0x80, zeros to 56 mod 64, then the length. -/
def sha1Pad (m : List Nat) : List Nat :=
  m ++ 128 :: List.replicate ((119 - m.length % 64) % 64) 0
    ++ lenBytes (8 * m.length)

/-- Pack four bytes into one big-endian 32-bit word. -/
def word4 : List Nat → Nat
  | b0 :: b1 :: b2 :: b3 :: _ => ((b0 * 256 + b1) * 256 + b2) * 256 + b3
  | _ => 0

/-- Split a padded message into the 16 words of each 64-byte chunk. -/
def chunkWords (bs : List Nat) : List Nat :=
  [word4 bs, word4 (bs.drop 4), word4 (bs.drop 8), word4 (bs.drop 12),
   word4 (bs.drop 16), word4 (bs.drop 20), word4 (bs.drop 24), word4 (bs.drop 28),
   word4 (bs.drop 32), word4 (bs.drop 36), word4 (bs.drop 40), word4 (bs.drop 44),
   word4 (bs.drop 48), word4 (bs.drop 52), word4 (bs.drop 56), word4 (bs.drop 60)]

/-- Message-schedule extension: grow the reversed word list to 80. -/
def extendWords : Nat → List Nat → List Nat
  | 0, ws => ws
  | k + 1, ws =>
    let a := ws.getD 2 0
    let b := ws.getD 7 0
    let c := ws.getD 13 0
    let d := ws.getD 15 0
    extendWords k (rotl 1 (((a ^^^ b) ^^^ c) ^^^ d) :: ws)

/-- One SHA-1 round; `i` is the round index, `w` the schedule word. -/
def sha1Round (i w : Nat) : Nat × Nat × Nat × Nat × Nat → Nat × Nat × Nat × Nat × Nat
  | (a, b, c, d, e) =>
    let f :=
      if i < 20 then (b &&& c) ||| ((4294967295 - b) &&& d)
      else if i < 40 then (b ^^^ c) ^^^ d
      else if i < 60 then ((b &&& c) ||| (b &&& d)) ||| (c &&& d)
      else (b ^^^ c) ^^^ d
    let k :=
      if i < 20 then 1518500249
      else if i < 40 then 1859775393
      else if i < 60 then 2400959708
      else 3395469782
    let temp := (rotl 5 a + f + e + k + w) % 4294967296
    (temp, a, rotl 30 b, c, d)

/-- Run the 80 rounds over the schedule. -/
def sha1Rounds (i : Nat) (ws : List Nat)
    (st : Nat × Nat × Nat × Nat × Nat) : Nat × Nat × Nat × Nat × Nat :=
  match ws with
  | [] => st
  | w :: rest => sha1Rounds (i + 1) rest (sha1Round i w st)

/-- Process the 64-byte chunks of a padded message. -/
def sha1Chunks : Nat → List Nat → Nat × Nat × Nat × Nat × Nat → Nat × Nat × Nat × Nat × Nat
  | 0, _, h => h
  | fuel + 1, bs, (h0, h1, h2, h3, h4) =>
    match bs with
    | [] => (h0, h1, h2, h3, h4)
    | _ :: _ =>
      let ws := (extendWords 64 (chunkWords bs).reverse).reverse
      let st := sha1Rounds 0 ws (h0, h1, h2, h3, h4)
      sha1Chunks fuel (bs.drop 64)
        ((h0 + st.1) % 4294967296, (h1 + st.2.1) % 4294967296,
         (h2 + st.2.2.1) % 4294967296, (h3 + st.2.2.2.1) % 4294967296,
         (h4 + st.2.2.2.2) % 4294967296)

/-- SHA-1 digest of a byte list, as the five 32-bit state words. -/
def sha1 (m : List Nat) : Nat × Nat × Nat × Nat × Nat :=
  let p := sha1Pad m
  sha1Chunks (p.length / 64 + 1) p
    (1732584193, 4023233417, 2562383102, 271733878, 3285377520)

/-- One lowercase hexadecimal digit. -/
def hexDigit (n : Nat) : Char :=
  if n < 10 then Char.ofNat (48 + n) else Char.ofNat (87 + n)

/-- Fixed-width (8 digit) lowercase hex rendering of a 32-bit word. -/
def wordHex8 (w : Nat) : List Char :=
  [hexDigit (w / 2 ^ 28 % 16), hexDigit (w / 2 ^ 24 % 16),
   hexDigit (w / 2 ^ 20 % 16), hexDigit (w / 2 ^ 16 % 16),
   hexDigit (w / 2 ^ 12 % 16), hexDigit (w / 2 ^ 8 % 16),
   hexDigit (w / 2 ^ 4 % 16), hexDigit (w % 16)]

/-! ## stable_id (src/segments.py lines 33-37)

The digest input is the UTF-8 encoding of
`source_key + "|" + kind + "|" + str(idx) + "|" + str(start) + "|" + str(end)`
followed by the UTF-8 encoding of `text` (two `update` calls
concatenate).  The result is the first 16 characters of the 40-digit
hex digest, i.e. the first word and a half of the state. -/

/-- The byte message hashed by `stable_id`. -/
def idMessage (source_key kind : List Char) (idx : Nat) (start stop : Int)
    (text : List Char) : List Nat :=
  utf8 (source_key ++ '|' :: kind ++ '|' :: natStr idx ++ '|' :: intStr start
    ++ '|' :: intStr stop) ++ utf8 text

/-- Model of `stable_id`: 16-character truncated SHA-1 hex digest. -/
def stable_id (source_key kind : List Char) (idx : Nat) (start stop : Int)
    (text : List Char) : List Char :=
  let d := sha1 (idMessage source_key kind idx start stop text)
  (wordHex8 d.1 ++ wordHex8 d.2.1).take 16

/-! ## Segment extraction (src/segments.py lines 7-91)

The patterns BODY_RX and TOGGLE_RX both have the shape
`\[NAME\b[^\]]*\](BODY lazily)\[/NAME\]`.  At a given position the
engine's behaviour is deterministic: the literal `[NAME` must match
(for BODY_RX at most one alternative can match literally since no tag
name is a prefix of another, and the engine tries them in order), the
`\b` requires the next character to not be a word character, the
greedy class `[^\]]*` runs exactly to the first `]`, and the lazy body
runs to the first occurrence of the closing literal.  `finditer`
yields non-overlapping matches left to right, resuming after each
match. -/

/-- The fixed body-tag vocabulary, in the source's alternation order. -/
def BODY_TAGS : List (List Char) :=
  ["fusion_title".data, "fusion_text".data, "fusion_highlight".data,
   "fusion_button".data, "fusion_li_item".data, "fusion_table".data]

/-- One regex match: absolute match span, tag name, attribute region,
absolute body span, body text. -/
structure RxMatch where
  mStart : Nat
  tag : List Char
  attrs : List Char
  bodyStart : Nat
  bodyEnd : Nat
  body : List Char
  mEnd : Nat
deriving DecidableEq, Inhabited, Repr

/-- Try to match `\[tag\b[^\]]*\]([\s\S]*?)\[/tag\]` at position `p`. -/
def tryMatchTag (t : List Char) (p : Nat) (tag : List Char) : Option RxMatch :=
  let s := t.drop p
  if startsWith ('[' :: tag) s then
    let rest1 := s.drop (1 + tag.length)
    if (match rest1.head? with | some c => isWordChar c | none => false) then
      none
    else
      match firstOcc [']'] rest1 with
      | none => none
      | some j0 =>
        let rest2 := rest1.drop (j0 + 1)
        let close := '[' :: '/' :: (tag ++ [']'])
        match firstOcc close rest2 with
        | none => none
        | some k0 =>
          some { mStart := p, tag := tag, attrs := rest1.take j0,
                 bodyStart := p + 1 + tag.length + j0 + 1,
                 bodyEnd := p + 1 + tag.length + j0 + 1 + k0,
                 body := rest2.take k0,
                 mEnd := p + 1 + tag.length + j0 + 1 + k0 + close.length }
  else none

/-- One attempt of BODY_RX at a position (alternatives in order). -/
def tryMatchBody (t : List Char) (p : Nat) : Option RxMatch :=
  BODY_TAGS.findSome? (fun tag => tryMatchTag t p tag)

/-- The toggle tag name as an explicit character list. -/
def toggleTag : List Char :=
  ['f', 'u', 's', 'i', 'o', 'n', '_', 't', 'o', 'g', 'g', 'l', 'e']

/-- One attempt of TOGGLE_RX at a position. -/
def tryMatchToggle (t : List Char) (p : Nat) : Option RxMatch :=
  tryMatchTag t p toggleTag

/-- The `finditer` loop: left-to-right scan, resuming after each
match; the fuel argument is an upper bound on the remaining steps. -/
def scanAux (f : List Char → Nat → Option RxMatch) (t : List Char) :
    Nat → Nat → List RxMatch
  | 0, _ => []
  | fuel + 1, p =>
    if t.length ≤ p then []
    else
      match f t p with
      | some m => m :: scanAux f t fuel m.mEnd
      | none => scanAux f t fuel (p + 1)

/-- All BODY_RX matches of a document. -/
def scanBody (t : List Char) : List RxMatch :=
  scanAux tryMatchBody t (t.length + 1) 0

/-- All TOGGLE_RX matches of a document (also the matches of the
applier's `toggle_block_rx`, which is the same pattern without the
named groups). -/
def scanToggle (t : List Char) : List RxMatch :=
  scanAux tryMatchToggle t (t.length + 1) 0

/-- A segment dictionary.  The source's optional dictionary keys
`start`, `end` and `toggle_order` are `Option` fields (`stop?` models
the `end` key, which is a reserved word here). -/
structure Segment where
  id : List Char
  kind : List Char
  start? : Option Nat
  stop? : Option Nat
  toggle_order? : Option Nat
  text : List Char
deriving DecidableEq, Repr

/-- Structural markers whose presence discards a candidate segment. -/
def SKIP_IF_CONTAINS : List (List Char) :=
  ["<script".data, "application/ld+json".data]

/-- Model of `should_skip` (lowercasing on the ASCII range). -/
def should_skip (text : List Char) : Bool :=
  SKIP_IF_CONTAINS.any (fun x => containsSub (text.map Char.toLower) x)

/-- Python truthiness of `body.strip()`: some non-whitespace char. -/
def strippedNonempty (s : List Char) : Bool :=
  s.any (fun c => !c.isWhitespace)

/-- The title attribute value of a toggle match, when present. -/
def titleOf (m : RxMatch) : Option (List Char) :=
  match searchTitle m.attrs with
  | some r => some r.2.1
  | none => none

/-- Body-pass segment for match `m` with ordinal `idx`. -/
def mkBodySeg (sk : List Char) (idx : Nat) (m : RxMatch) : Segment :=
  { id := stable_id sk m.tag idx (Int.ofNat m.bodyStart) (Int.ofNat m.bodyEnd) m.body,
    kind := m.tag, start? := some m.bodyStart, stop? := some m.bodyEnd,
    toggle_order? := none, text := m.body }

/-- First loop of `extract_segments`: body-tag matches, skipping
matches with structural markers, threading the ordinal `idx`. -/
def bodyPass (sk : List Char) : List RxMatch → Nat → List Segment × Nat
  | [], idx => ([], idx)
  | m :: rest, idx =>
    if should_skip m.body then bodyPass sk rest idx
    else
      let r := bodyPass sk rest (idx + 1)
      (mkBodySeg sk idx m :: r.1, r.2)

/-- Title segment of toggle number `order` (no span; sentinel -1). -/
def mkTitleSeg (sk : List Char) (idx order : Nat) (g : List Char) : Segment :=
  { id := stable_id sk "fusion_toggle:title".data idx (-1) (-1) g,
    kind := "fusion_toggle:title".data, start? := none, stop? := none,
    toggle_order? := some order, text := g }

/-- Body segment of toggle number `order`. -/
def mkToggleBodySeg (sk : List Char) (idx order : Nat) (m : RxMatch) : Segment :=
  { id := stable_id sk "fusion_toggle:body".data idx (Int.ofNat m.bodyStart)
      (Int.ofNat m.bodyEnd) m.body,
    kind := "fusion_toggle:body".data, start? := some m.bodyStart,
    stop? := some m.bodyEnd, toggle_order? := some order, text := m.body }

/-- Second loop of `extract_segments`: toggle matches, contributing up
to one title segment and one body segment each, threading `idx` and
the 0-based `toggle_order`. -/
def togglePass (sk : List Char) : List RxMatch → Nat → Nat → List Segment
  | [], _, _ => []
  | m :: rest, idx, order =>
    let tpart : List Segment × Nat :=
      match titleOf m with
      | some g =>
        if g ≠ [] ∧ should_skip g = false then ([mkTitleSeg sk idx order g], idx + 1)
        else ([], idx)
      | none => ([], idx)
    let bpart : List Segment × Nat :=
      if strippedNonempty m.body = true ∧ should_skip m.body = false then
        ([mkToggleBodySeg sk tpart.2 order m], tpart.2 + 1)
      else ([], tpart.2)
    tpart.1 ++ bpart.1 ++ togglePass sk rest bpart.2 (order + 1)

/-- The sort key `(x.get("start", 10**18), x.get("end", 10**18))`. -/
def sortKey (s : Segment) : Nat × Nat :=
  (s.start?.getD 1000000000000000000, s.stop?.getD 1000000000000000000)

/-- Lexicographic comparison of sort keys (Python tuple order). -/
def segLE (a b : Segment) : Prop :=
  (sortKey a).1 < (sortKey b).1 ∨
    ((sortKey a).1 = (sortKey b).1 ∧ (sortKey a).2 ≤ (sortKey b).2)

instance : DecidableRel segLE := fun a b => by
  unfold segLE; exact inferInstance

/-- Model of `extract_segments`: both passes, then the stable sort by
`(start, end)` with the large sentinel (Python `list.sort` is stable;
insertion sort with a non-strict total comparison is the same stable
sort). -/
def extract_segments (text sk : List Char) : List Segment :=
  let bp := bodyPass sk (scanBody text) 0
  List.insertionSort segLE (bp.1 ++ togglePass sk (scanToggle text) bp.2 0)

/-! ## The applier (src/segments.py lines 93-98 and 129-197)

One document's `apply` step, with file I/O stripped: the function
receives the extracted segment ids, the translated segment list, and
returns either the output document (the single file write) or the
error that aborts the document with no output written.  Error
messages are abbreviated tags; the claims do not depend on their
wording.  The two Python dicts keyed by id keep the last entry for a
duplicated key, hence lookups take the last match. -/

/-- A record of the extracted-JSON transport (only ids are used). -/
structure ExSeg where
  id : List Char
deriving DecidableEq, Repr

/-- A record of the translated-JSON transport. -/
structure TrSeg where
  id : List Char
  text : List Char
deriving DecidableEq, Repr

/-- Lookup in the dict `{s["id"]: s for s in l}`: last entry wins. -/
def lookupLast (l : List TrSeg) (k : List Char) : Option (List Char) :=
  match l with
  | [] => none
  | s :: rest =>
    match lookupLast rest k with
    | some t => some t
    | none => if s.id = k then some s.text else none

/-- Result of applying one document: the written output, or the
raised error (in which case no output file is written). -/
inductive ApplyOut
  | fail (msg : List Char)
  | done (out : List Char)
deriving DecidableEq, Repr

/-- Offset replacements, performed over the reversed span list:
`out = out[:start] + new_text + out[end:]`; a segment id absent from
the translated dict raises (Python `tr_map[sid]` KeyError). -/
def applySpans (tr : List TrSeg) : List Segment → List Char → ApplyOut
  | [], out => .done out
  | s :: rest, out =>
    match lookupLast tr s.id with
    | none => .fail "KeyError".data
    | some nt =>
      applySpans tr rest (out.take (s.start?.getD 0) ++ nt ++ out.drop (s.stop?.getD 0))

/-- Model of `replace_toggle_title`: replace the first
`TITLE_ATTR_RX` match of the whole block with `title="new"`, or
return the block unchanged when the pattern does not match. -/
def replace_toggle_title (block new : List Char) : List Char :=
  match searchTitle block with
  | some r => r.1 ++ TQ ++ new ++ '"' :: r.2.2
  | none => block

/-- One title-segment relocation (src/segments.py lines 182-193):
re-scan the current document for toggle blocks, clamp the ordinal to
the last block, splice the rewritten block back. -/
def applyTitleStep (out : List Char) (order : Nat) (nt : List Char) : ApplyOut :=
  let blocks := scanToggle out
  if blocks = [] then .fail "toggle block not found".data
  else
    let o := if blocks.length ≤ order then blocks.length - 1 else order
    let bm := blocks.getD o default
    .done (out.take bm.mStart
      ++ replace_toggle_title (pySlice out bm.mStart bm.mEnd) nt
      ++ out.drop bm.mEnd)

/-- The title-segment loop of `cmd_apply`. -/
def applyTitles (tr : List TrSeg) : List Segment → List Char → ApplyOut
  | [], out => .done out
  | s :: rest, out =>
    match lookupLast tr s.id with
    | none => .fail "KeyError".data
    | some nt =>
      match applyTitleStep out (s.toggle_order?.getD 0) nt with
      | .fail e => .fail e
      | .done out2 => applyTitles tr rest out2

/-- Model of `cmd_apply` for one document: completeness check on the
extracted ids, re-extraction, offset replacements in descending
order, then title relocation. -/
def cmd_apply_doc (raw sk : List Char) (exs : List ExSeg) (tr : List TrSeg) : ApplyOut :=
  if exs.filter (fun e => (lookupLast tr e.id).isNone) ≠ [] then
    .fail "Missing translated segment IDs".data
  else
    let segs := extract_segments raw sk
    let span_segs := segs.filter (fun s => s.start?.isSome && s.stop?.isSome)
    let title_segs := segs.filter (fun s => s.kind == "fusion_toggle:title".data)
    match applySpans tr span_segs.reverse raw with
    | .fail e => .fail e
    | .done out1 => applyTitles tr title_segs out1

/-! ## Integrity validator (src/translate.py lines 20-47) -/

/-- Split `s` at its first `]` (the greedy class `[^\]]*` of
BRACKET_RX runs exactly to the first closing bracket). -/
def splitAtRB : List Char → Option (List Char × List Char)
  | [] => none
  | c :: rest =>
    if c = ']' then some ([], rest)
    else (splitAtRB rest).map (fun p => (c :: p.1, p.2))

/-- The `findall` loop of `BRACKET_RX = \[[^\]]*?\]`: each token runs
from a `[` to the first following `]`; scanning resumes after the
token.  A `[` with no later `]` ends the scan (no later match can
close either). -/
def bracketTokensAux : Nat → List Char → List (List Char)
  | 0, _ => []
  | fuel + 1, s =>
    match s with
    | [] => []
    | c :: rest =>
      if c = '[' then
        match splitAtRB rest with
        | some (mid, rest2) => ('[' :: mid ++ [']']) :: bracketTokensAux fuel rest2
        | none => []
      else bracketTokensAux fuel rest

/-- Ordered list of maximal bracket-delimited tokens of a text. -/
def bracketTokens (s : List Char) : List (List Char) :=
  bracketTokensAux s.length s

/-- The case-insensitive deny-list. -/
def BAD_TOKENS : List (List Char) := ["on_toggle]".data, "off_toggle]".data]

/-- Model of `is_corrupt`: bracket-token sequences must be equal, and
the lowercased candidate must contain no deny-listed substring. -/
def is_corrupt (original translated : List Char) : Bool :=
  if bracketTokens original ≠ bracketTokens translated then true
  else if BAD_TOKENS.any (fun b => containsSub (translated.map Char.toLower) b) then true
  else false

/-! ## Batch retry machine (src/translate.py lines 71-105)

The external service call is an oracle from the 0-based attempt
number to its outcome (a raised exception, coded by a number, or a
parsed response).  The run records the number of invocations and the
backoff exponents of the executed sleeps: the sleep after attempt `n`
lasts `sleep_base * 2 ** n` seconds, which is determined by the
exponent `n` (scaling a float by a power of two is exact), so the
events are recorded as exponents. -/

/-- Errors of one attempt. -/
inductive TErr
  | svc (code : Nat)
  | schemaCount
  | missingId
  | corrupt (ids : List (List Char))
deriving DecidableEq, Repr

/-- Outcome of one service invocation. -/
inductive SvcOut
  | raise (code : Nat)
  | reply (r : List TrSeg)
deriving DecidableEq, Repr

/-- Validation of a parsed response, in source order: cardinality,
then missing ids, then the integrity predicate per segment. -/
def validateOnce (segments : List TrSeg) (resp : List TrSeg) : Option TErr :=
  if resp.length ≠ segments.length then some .schemaCount
  else if segments.any (fun s => (lookupLast resp s.id).isNone) then some .missingId
  else
    let bad := (segments.filter
      (fun s => is_corrupt s.text ((lookupLast resp s.id).getD []))).map (fun s => s.id)
    if bad ≠ [] then some (.corrupt bad) else none

/-- The error produced by attempt `n`, if it fails. -/
def errOf (oracle : Nat → SvcOut) (segments : List TrSeg) (n : Nat) : Option TErr :=
  match oracle n with
  | .raise c => some (.svc c)
  | .reply r => validateOnce segments r

/-- Terminal outcome of a batch run: the validated response, or the
propagated last error (`none` only for `max_retries = 0`, where the
source would raise `None`). -/
inductive TRes
  | ok (resp : List TrSeg)
  | err (e : Option TErr)
deriving DecidableEq, Repr

/-- A batch run: outcome, number of service invocations, and backoff
exponents of the executed sleeps, in order. -/
structure RunResult where
  result : TRes
  calls : Nat
  sleeps : List Nat
deriving DecidableEq, Repr

/-- The retry loop of `translate_segments`: `k` attempts remain and
`n` is the current 0-based attempt number.  Every failed attempt
sleeps (also the last one) and the last error is re-raised when the
attempts are exhausted; a validated response returns immediately. -/
def runAux (oracle : Nat → SvcOut) (segments : List TrSeg) :
    Nat → Nat → Option TErr → RunResult
  | 0, _, last => { result := .err last, calls := 0, sleeps := [] }
  | k + 1, n, _ =>
    match oracle n with
    | .raise c =>
      let r := runAux oracle segments k (n + 1) (some (.svc c))
      { result := r.result, calls := r.calls + 1, sleeps := n :: r.sleeps }
    | .reply resp =>
      match validateOnce segments resp with
      | some e =>
        let r := runAux oracle segments k (n + 1) (some e)
        { result := r.result, calls := r.calls + 1, sleeps := n :: r.sleeps }
      | none => { result := .ok resp, calls := 1, sleeps := [] }

/-- Model of `translate_segments` for one batch. -/
def translate_segments_model (oracle : Nat → SvcOut) (segments : List TrSeg)
    (max_retries : Nat) : RunResult :=
  runAux oracle segments max_retries 0 none

/-! ## Basic splice lemmas -/

/-- Splicing a slice back between the surrounding take and drop
reproduces the list. -/
theorem splice_slice (l : List Char) (a b : Nat) (hab : a ≤ b) :
    l.take a ++ pySlice l a b ++ l.drop b = l := by
  have hd : l.drop b = (l.drop a).drop (b - a) := by
    rw [List.drop_drop]
    congr 1
    omega
  rw [pySlice, hd, List.append_assoc, List.take_append_drop, List.take_append_drop]

/-- Members of a deeper drop are members of a shallower drop. -/
theorem mem_drop_succ {x : Char} {l : List Char} {n : Nat}
    (h : x ∈ l.drop (n + 1)) : x ∈ l.drop n := by
  have : l.drop (n + 1) = (l.drop n).drop 1 := by rw [List.drop_drop]
  rw [this] at h
  cases hd : l.drop n with
  | nil => rw [hd] at h; simp at h
  | cons c rest => rw [hd] at h; simp at h; simp [hd]; right; exact h

/-! ## Lemmas about the TITLE_ATTR_RX scanner -/

/-- A successful split decomposes at the first quote. -/
theorem splitAtQuote_some (s g post : List Char)
    (h : splitAtQuote s = some (g, post)) :
    s = g ++ '"' :: post ∧ '"' ∉ g := by
  induction s generalizing g post with
  | nil => simp [splitAtQuote] at h
  | cons c rest ih =>
    simp only [splitAtQuote] at h
    split at h
    case isTrue hc =>
      subst hc
      cases h
      simp
    case isFalse hc =>
      cases hsub : splitAtQuote rest with
      | none => rw [hsub] at h; simp at h
      | some p =>
        rw [hsub] at h
        simp at h
        obtain ⟨h1, h2⟩ := h
        obtain ⟨hdec, hnot⟩ := ih p.1 p.2 (by rw [hsub])
        subst h2
        constructor
        · rw [← h1]; simp [hdec]
        · rw [← h1]
          simp
          exact ⟨fun he => hc he.symm, hnot⟩

/-- A failed split means no quote at all. -/
theorem splitAtQuote_none (s : List Char) (h : splitAtQuote s = none) :
    '"' ∉ s := by
  induction s with
  | nil => simp
  | cons c rest ih =>
    simp only [splitAtQuote] at h
    split at h
    case isTrue hc => simp at h
    case isFalse hc =>
      cases hsub : splitAtQuote rest with
      | none =>
        simp
        exact ⟨fun he => hc he.symm, ih hsub⟩
      | some p => rw [hsub] at h; simp at h

/-- Appending to the right preserves a successful split. -/
theorem splitAtQuote_append (s g post t : List Char)
    (h : splitAtQuote s = some (g, post)) :
    splitAtQuote (s ++ t) = some (g, post ++ t) := by
  induction s generalizing g post with
  | nil => simp [splitAtQuote] at h
  | cons c rest ih =>
    simp only [splitAtQuote] at h ⊢
    split at h
    case isTrue hc =>
      cases h
      simp [hc]
    case isFalse hc =>
      cases hsub : splitAtQuote rest with
      | none => rw [hsub] at h; simp at h
      | some p =>
        rw [hsub] at h
        simp at h
        obtain ⟨h1, h2⟩ := h
        rw [if_neg hc]
        simp only [List.append_eq]
        rw [ih p.1 p.2 (by rw [hsub])]
        simp [← h1, ← h2]

/-- Word-boundary condition of a match with prefix `pre`, scanned
with previous character `prev`. -/
def bOkAt (prev : Option Char) (pre : List Char) : Prop :=
  match pre.getLast? with
  | none => bOk prev = true
  | some c => isWordChar c = false

/-- Helper for the recursion case of scanner lemmas: lifting the
boundary condition through one cons. -/
theorem bOkAt_cons (p : Option Char) (c : Char) (pre : List Char)
    (h : bOkAt (some c) pre) : bOkAt p (c :: pre) := by
  cases hp : pre with
  | nil =>
    rw [hp] at h
    simp only [bOkAt, List.getLast?_nil, bOk] at h
    simp only [bOkAt, List.getLast?]
    simpa using h
  | cons c2 rest2 =>
    rw [hp] at h
    simpa only [bOkAt, List.getLast?_cons_cons] using h

/-- Soundness of the scanner: a match is a decomposition whose
capture group is quote-free and whose position satisfies `\b`. -/
theorem searchTitleAux_sound (p : Option Char) (s pre g post : List Char)
    (h : searchTitleAux p s = some (pre, g, post)) :
    s = pre ++ TQ ++ g ++ '"' :: post ∧ '"' ∉ g ∧ bOkAt p pre := by
  induction s generalizing p pre g post with
  | nil => simp [searchTitleAux] at h
  | cons c rest ih =>
    have hrec : ∀ r, searchTitleAux (some c) rest = some r →
        (c :: r.1, r.2.1, r.2.2) = (pre, g, post) →
        c :: rest = pre ++ TQ ++ g ++ '"' :: post ∧ '"' ∉ g ∧ bOkAt p pre := by
      intro r hr heq
      obtain ⟨h1, h2, h3⟩ : c :: r.1 = pre ∧ r.2.1 = g ∧ r.2.2 = post := by
        injection heq with ha hb
        injection hb with hb hc
        exact ⟨ha, hb, hc⟩
      obtain ⟨hdec, hnot, hbk⟩ := ih (some c) r.1 r.2.1 r.2.2 (by
        rw [hr])
      refine ⟨?_, by rw [← h2]; exact hnot, ?_⟩
      · rw [← h1, ← h2, ← h3]
        simp [hdec]
      · rw [← h1]
        exact bOkAt_cons p c r.1 hbk
    simp only [searchTitleAux] at h
    split at h
    case isTrue hcond =>
      obtain ⟨hb, hsw⟩ := hcond
      cases hsq : splitAtQuote ((c :: rest).drop 7) with
      | some pr =>
        obtain ⟨g0, post0⟩ := pr
        rw [hsq] at h
        simp only [] at h
        obtain ⟨hpre, hg, hpost⟩ : [] = pre ∧ g0 = g ∧ post0 = post := by
          injection h with ha
          injection ha with ha hb
          injection hb with hb hc
          exact ⟨ha, hb, hc⟩
        obtain ⟨t, ht⟩ := (startsWith_iff TQ (c :: rest)).1 hsw
        have hdrop : (c :: rest).drop 7 = t := by
          rw [ht]
          have h7 : (7 : Nat) = TQ.length := by decide
          rw [h7, List.drop_left]
        rw [hdrop] at hsq
        obtain ⟨htdec, hnot⟩ := splitAtQuote_some t g0 post0 hsq
        refine ⟨?_, by rw [← hg]; exact hnot, ?_⟩
        · rw [ht, htdec, ← hpre, ← hg, ← hpost]
          simp
        · rw [← hpre]
          simpa [bOkAt, List.getLast?] using hb
      | none =>
        rw [hsq] at h
        simp only [] at h
        cases hr : searchTitleAux (some c) rest with
        | none => rw [hr] at h; simp at h
        | some r =>
          rw [hr] at h
          simp only [Option.map, Option.some.injEq] at h
          exact hrec r hr (by rw [h])
    case isFalse hcond =>
      cases hr : searchTitleAux (some c) rest with
      | none => rw [hr] at h; simp at h
      | some r =>
        rw [hr] at h
        simp only [Option.map, Option.some.injEq] at h
        exact hrec r hr (by rw [h])

/-- A successful scan implies a quote at offset at least 6 (the quote
of the matched literal itself qualifies). -/
theorem searchTitleAux_quote (p : Option Char) (s : List Char)
    (r : List Char × List Char × List Char)
    (h : searchTitleAux p s = some r) : '"' ∈ s.drop 6 := by
  induction s generalizing p r with
  | nil => simp [searchTitleAux] at h
  | cons c rest ih =>
    have hrec : ∀ q, searchTitleAux (some c) rest = some q → '"' ∈ (c :: rest).drop 6 := by
      intro q hq
      have h6 : '"' ∈ rest.drop 6 := ih (some c) q hq
      have : (c :: rest).drop 6 = rest.drop 5 := by simp
      rw [this]
      exact mem_drop_succ h6
    simp only [searchTitleAux] at h
    split at h
    case isTrue hcond =>
      obtain ⟨t, ht⟩ := (startsWith_iff TQ (c :: rest)).1 hcond.2
      rw [ht]
      have : (TQ ++ t).drop 6 = '"' :: t := by
        have h6 : (6 : Nat) ≤ TQ.length := by decide
        rw [List.drop_append_eq_append_drop]
        have : TQ.drop 6 = ['"'] := by decide
        rw [this]
        have h0 : 6 - TQ.length = 0 := by decide
        simp [h0]
      rw [this]
      simp
    case isFalse hcond =>
      cases hr : searchTitleAux (some c) rest with
      | none => rw [hr] at h; simp at h
      | some q => exact hrec q hr

/-- A failed prefix test either stays failed under extension or the
string was shorter than the pattern. -/
theorem startsWith_false_cases (p s t : List Char)
    (h : startsWith p s = false) :
    startsWith p (s ++ t) = false ∨ s.length < p.length := by
  induction p generalizing s with
  | nil => simp [startsWith] at h
  | cons a ps ih =>
    cases s with
    | nil => right; simp
    | cons c cs =>
      simp only [startsWith] at h
      by_cases hac : a = c
      · rw [if_pos hac] at h
        rcases ih cs h with hl | hr
        · left
          simpa [startsWith, hac] using hl
        · right
          simpa using hr
      · left
        simp [startsWith, hac]

/-- A successful prefix test survives extension. -/
theorem startsWith_append (p s t : List Char)
    (h : startsWith p s = true) : startsWith p (s ++ t) = true := by
  obtain ⟨u, hu⟩ := (startsWith_iff p s).1 h
  apply (startsWith_iff p (s ++ t)).2
  exact ⟨u ++ t, by rw [hu]; simp⟩

/-- A match found in `s` is found unchanged in `s ++ tail` (the match
closes inside `s`, and no occurrence that failed for lack of a
closing quote can precede it). -/
theorem searchTitleAux_ext (p : Option Char) (s tail pre g post : List Char)
    (h : searchTitleAux p s = some (pre, g, post)) :
    searchTitleAux p (s ++ tail) = some (pre, g, post ++ tail) := by
  induction s generalizing p pre g post with
  | nil => simp [searchTitleAux] at h
  | cons c rest ih =>
    simp only [searchTitleAux] at h
    simp only [List.cons_append, searchTitleAux, List.append_eq]
    split at h
    case isTrue hcond =>
      obtain ⟨hb, hsw⟩ := hcond
      have hsw2 : startsWith TQ (c :: (rest ++ tail)) = true := by
        have := startsWith_append TQ (c :: rest) tail hsw
        simpa using this
      rw [if_pos ⟨hb, hsw2⟩]
      cases hsq : splitAtQuote ((c :: rest).drop 7) with
      | some pr =>
        obtain ⟨g0, post0⟩ := pr
        rw [hsq] at h
        simp only [] at h
        obtain ⟨hpre, hg, hpost⟩ : [] = pre ∧ g0 = g ∧ post0 = post := by
          injection h with ha
          injection ha with ha hb2
          injection hb2 with hb2 hc2
          exact ⟨ha, hb2, hc2⟩
        have hlen : 7 ≤ (c :: rest).length := by
          obtain ⟨u, hu⟩ := (startsWith_iff TQ (c :: rest)).1 hsw
          have := congrArg List.length hu
          simp [TQ] at this
          simp only [List.length_cons]
          omega
        have hdrop : (c :: (rest ++ tail)).drop 7 = (c :: rest).drop 7 ++ tail := by
          have : (c :: (rest ++ tail)) = (c :: rest) ++ tail := by simp
          rw [this, List.drop_append_eq_append_drop]
          have h0 : 7 - (c :: rest).length = 0 := by omega
          rw [h0]
          simp
        rw [hdrop, splitAtQuote_append _ g0 post0 tail hsq]
        rw [← hpre, ← hg, ← hpost]
      | none =>
        rw [hsq] at h
        simp only [] at h
        cases hr : searchTitleAux (some c) rest with
        | none => rw [hr] at h; simp at h
        | some r =>
          have hquote : '"' ∈ rest.drop 6 := by
            have := searchTitleAux_quote (some c) rest r hr
            exact this
          have hnone : '"' ∉ (c :: rest).drop 7 := splitAtQuote_none _ hsq
          have : (c :: rest).drop 7 = rest.drop 6 := by simp
          rw [this] at hnone
          exact absurd hquote hnone
    case isFalse hcond =>
      by_cases hsw : startsWith TQ (c :: rest) = true
      · have hb : ¬ (bOk p = true) := by
          intro hbt
          exact hcond ⟨hbt, hsw⟩
        have hsw2 : startsWith TQ (c :: (rest ++ tail)) = true := by
          have := startsWith_append TQ (c :: rest) tail hsw
          simpa using this
        rw [if_neg (by
          intro hcon2
          exact hb hcon2.1)]
        cases hr : searchTitleAux (some c) rest with
        | none => rw [hr] at h; simp at h
        | some r =>
          rw [hr] at h
          simp only [Option.map, Option.some.injEq] at h
          have := ih (some c) r.1 r.2.1 r.2.2 (by rw [hr])
          rw [this]
          simp only [Option.map, Option.some.injEq]
          obtain ⟨h1, h2, h3⟩ : c :: r.1 = pre ∧ r.2.1 = g ∧ r.2.2 = post := by
            injection h with ha hb2
            injection hb2 with hb2 hc2
            exact ⟨ha, hb2, hc2⟩
          rw [h1, h2, h3]
      · have hswf : startsWith TQ (c :: rest) = false := by
          simpa using hsw
        cases hr : searchTitleAux (some c) rest with
        | none => rw [hr] at h; simp at h
        | some r =>
          have hlong : 8 ≤ rest.length := by
            obtain ⟨hdec, _, _⟩ := searchTitleAux_sound (some c) rest r.1 r.2.1 r.2.2 (by
              rw [hr])
            have := congrArg List.length hdec
            simp [TQ] at this
            omega
          rcases startsWith_false_cases TQ (c :: rest) tail hswf with hl | hshort
          · rw [if_neg (by
              intro hcon2
              rw [List.cons_append] at hl
              rw [hcon2.2] at hl
              cases hl)]
            rw [hr] at h
            simp only [Option.map, Option.some.injEq] at h
            have := ih (some c) r.1 r.2.1 r.2.2 (by rw [hr])
            rw [this]
            simp only [Option.map, Option.some.injEq]
            obtain ⟨h1, h2, h3⟩ : c :: r.1 = pre ∧ r.2.1 = g ∧ r.2.2 = post := by
              injection h with ha hb2
              injection hb2 with hb2 hc2
              exact ⟨ha, hb2, hc2⟩
            rw [h1, h2, h3]
          · simp [TQ] at hshort
            omega

/-- The pattern cannot start at a character other than `t`. -/
theorem startsWith_TQ_false (c : Char) (rest : List Char) (hc : c ≠ 't') :
    startsWith TQ (c :: rest) = false := by
  simp only [TQ, startsWith]
  rw [if_neg (by intro he; exact hc he.symm)]

/-- The pattern cannot start at `t` followed by `o`. -/
theorem startsWith_TQ_false_to (rest : List Char) :
    startsWith TQ ('t' :: 'o' :: rest) = false := by
  simp [TQ, startsWith]

/-- One failed-position step of the scanner. -/
theorem searchTitleAux_step (p : Option Char) (c : Char) (rest : List Char)
    (hns : startsWith TQ (c :: rest) = false) :
    searchTitleAux p (c :: rest) =
      (searchTitleAux (some c) rest).map (fun r => (c :: r.1, r.2.1, r.2.2)) := by
  simp only [searchTitleAux]
  rw [if_neg (by intro hcon; rw [hcon.2] at hns; cases hns)]

/-- The carried previous character is irrelevant when the scanned
string starts with a non-word character (the boundary only matters
where the literal could match, which needs the word character `t`). -/
theorem searchTitleAux_prev (p1 p2 : Option Char) (s : List Char)
    (hhead : ∀ c, s.head? = some c → isWordChar c = false) :
    searchTitleAux p1 s = searchTitleAux p2 s := by
  cases s with
  | nil => rfl
  | cons c rest =>
    have hc : isWordChar c = false := hhead c rfl
    have hct : c ≠ 't' := by
      intro he
      rw [he] at hc
      exact absurd hc (by decide)
    rw [searchTitleAux_step p1 c rest (startsWith_TQ_false c rest hct),
        searchTitleAux_step p2 c rest (startsWith_TQ_false c rest hct)]

/-- The opening literal of a toggle block. -/
def TOGPFX : List Char :=
  ['[', 'f', 'u', 's', 'i', 'o', 'n', '_', 't', 'o', 'g', 'g', 'l', 'e']

/-- Scanning a string that begins with the toggle-opening literal
steps through the literal: no title-pattern match can start inside
it or spanning out of it. -/
theorem searchTitleAux_togpfx (s : List Char) :
    searchTitleAux none (TOGPFX ++ s) =
      (searchTitleAux (some 'e') s).map (fun r => (TOGPFX ++ r.1, r.2.1, r.2.2)) := by
  show searchTitleAux none
    ('[' :: 'f' :: 'u' :: 's' :: 'i' :: 'o' :: 'n' :: '_' :: 't' :: 'o' :: 'g' :: 'g' :: 'l' :: 'e' :: s) = _
  rw [searchTitleAux_step none '[' _ (startsWith_TQ_false _ _ (by decide)),
      searchTitleAux_step (some '[') 'f' _ (startsWith_TQ_false _ _ (by decide)),
      searchTitleAux_step (some 'f') 'u' _ (startsWith_TQ_false _ _ (by decide)),
      searchTitleAux_step (some 'u') 's' _ (startsWith_TQ_false _ _ (by decide)),
      searchTitleAux_step (some 's') 'i' _ (startsWith_TQ_false _ _ (by decide)),
      searchTitleAux_step (some 'i') 'o' _ (startsWith_TQ_false _ _ (by decide)),
      searchTitleAux_step (some 'o') 'n' _ (startsWith_TQ_false _ _ (by decide)),
      searchTitleAux_step (some 'n') '_' _ (startsWith_TQ_false _ _ (by decide)),
      searchTitleAux_step (some '_') 't' _ (startsWith_TQ_false_to _),
      searchTitleAux_step (some 't') 'o' _ (startsWith_TQ_false _ _ (by decide)),
      searchTitleAux_step (some 'o') 'g' _ (startsWith_TQ_false _ _ (by decide)),
      searchTitleAux_step (some 'g') 'g' _ (startsWith_TQ_false _ _ (by decide)),
      searchTitleAux_step (some 'g') 'l' _ (startsWith_TQ_false _ _ (by decide)),
      searchTitleAux_step (some 'l') 'e' _ (startsWith_TQ_false _ _ (by decide))]
  cases hr : searchTitleAux (some 'e') s with
  | none => simp
  | some r => simp [TOGPFX]

/-- Main block lemma: the first title-attribute match inside a whole
toggle block whose attribute region has one is exactly the attribute
region's match, shifted by the opening literal. -/
theorem searchTitle_block (attrs tailp pre g post : List Char)
    (hhead : ∀ c, attrs.head? = some c → isWordChar c = false)
    (h : searchTitle attrs = some (pre, g, post)) :
    searchTitle (TOGPFX ++ (attrs ++ tailp)) = some (TOGPFX ++ pre, g, post ++ tailp) := by
  unfold searchTitle at h ⊢
  rw [searchTitleAux_togpfx]
  have hne : attrs ≠ [] := by
    intro he
    rw [he] at h
    simp [searchTitleAux] at h
  have hhead2 : ∀ c, (attrs ++ tailp).head? = some c → isWordChar c = false := by
    intro c hc
    apply hhead
    cases ha : attrs with
    | nil => exact absurd ha hne
    | cons a as =>
      rw [ha] at hc
      simpa using hc
  rw [searchTitleAux_prev (some 'e') none _ hhead2]
  rw [searchTitleAux_ext none attrs tailp pre g post h]
  simp

/-- Structural facts about a regex match of the shape
`\[tag\b[^\]]*\](body)\[/tag\]` inside document `t`. -/
def GoodMatch (t tag : List Char) (m : RxMatch) : Prop :=
  m.tag = tag ∧
  m.bodyStart = m.mStart + 1 + tag.length + m.attrs.length + 1 ∧
  m.bodyEnd = m.bodyStart + m.body.length ∧
  m.mEnd = m.bodyEnd + (tag.length + 3) ∧
  m.mStart < t.length ∧
  m.mEnd ≤ t.length ∧
  (∃ tail2, t.drop m.mStart =
    '[' :: (tag ++ (m.attrs ++ (']' :: (m.body ++ (('[' :: '/' :: (tag ++ [']'])) ++ tail2)))))) ∧
  (∀ c, m.attrs.head? = some c → isWordChar c = false)

/-- A successful `tryMatchTag` yields a good match at its position. -/
theorem tryMatchTag_good (t : List Char) (p : Nat) (tag : List Char) (m : RxMatch)
    (h : tryMatchTag t p tag = some m) : m.mStart = p ∧ GoodMatch t tag m := by
  simp only [tryMatchTag] at h
  split at h
  case isFalse => simp at h
  case isTrue hsw =>
    split at h
    case isTrue => simp at h
    case isFalse hbnd =>
      cases hj0 : firstOcc [']'] ((t.drop p).drop (1 + tag.length)) with
      | none => rw [hj0] at h; simp at h
      | some j0 =>
        rw [hj0] at h
        simp only [] at h
        cases hk0 : firstOcc ('[' :: '/' :: (tag ++ [']']))
            (((t.drop p).drop (1 + tag.length)).drop (j0 + 1)) with
        | none => rw [hk0] at h; simp at h
        | some k0 =>
          rw [hk0] at h
          simp only [] at h
          simp only [Option.some.injEq] at h
          obtain ⟨u, hu⟩ := (startsWith_iff ('[' :: tag) (t.drop p)).1 hsw
          have hrest1 : (t.drop p).drop (1 + tag.length) = u := by
            rw [hu]
            have hl : 1 + tag.length = ('[' :: tag).length := by simp; omega
            rw [hl, List.drop_left]
          rw [hrest1] at hj0 hk0 h
          obtain ⟨tail1, htail1⟩ := firstOcc_some [']'] u j0 hj0
          have hj0le : j0 + 1 ≤ u.length := by
            have := firstOcc_le [']'] u j0 hj0
            simpa using this
          have hudec : u = u.take j0 ++ ']' :: tail1 := by
            conv_lhs => rw [← List.take_append_drop j0 u]
            rw [htail1]
            simp
          have hattrslen : (u.take j0).length = j0 := by
            simp
            omega
          have hrest2 : u.drop (j0 + 1) = tail1 := by
            have hdd := List.drop_drop 1 j0 u
            rw [htail1] at hdd
            simp at hdd
            exact hdd.symm
          rw [hrest2] at hk0 h
          obtain ⟨tail2, htail2⟩ := firstOcc_some _ tail1 k0 hk0
          have hk0le : k0 + (tag.length + 3) ≤ tail1.length := by
            have := firstOcc_le _ tail1 k0 hk0
            simp at this
            omega
          have htail1dec : tail1 = tail1.take k0 ++ ('[' :: '/' :: (tag ++ [']'])) ++ tail2 := by
            conv_lhs => rw [← List.take_append_drop k0 tail1]
            rw [htail2]
            simp
          have hbodylen : (tail1.take k0).length = k0 := by
            simp
            omega
          subst h
          refine ⟨rfl, rfl, ?_, ?_, ?_, ?_, ?_, ⟨tail2, ?_⟩, ?_⟩
          · simp [hattrslen]
          · simp [hbodylen]
          · simp
          · show p < t.length
            have h1 : (t.drop p).length = t.length - p := by simp
            have h2 : (t.drop p).length = 1 + tag.length + u.length := by
              rw [hu]
              simp
              omega
            have h3 : u.length = j0 + 1 + tail1.length := by
              conv_lhs => rw [hudec]
              simp
              omega
            omega
          · show p + 1 + tag.length + j0 + 1 + k0 + ('[' :: '/' :: (tag ++ [']'])).length ≤ t.length
            have hcl : ('[' :: '/' :: (tag ++ [']'])).length = tag.length + 3 := by simp
            have h1 : (t.drop p).length = t.length - p := by simp
            have h2 : (t.drop p).length = 1 + tag.length + u.length := by
              rw [hu]
              simp
              omega
            have h3 : u.length = j0 + 1 + tail1.length := by
              conv_lhs => rw [hudec]
              simp
              omega
            have h4 : tail1.length = k0 + (tag.length + 3) + tail2.length := by
              conv_lhs => rw [htail1dec]
              simp
              omega
            omega
          · rw [hu]
            conv_lhs => rw [hudec]
            conv_lhs => rw [htail1dec]
            simp
          · intro c hc
            have hne : u.take j0 ≠ [] := by
              intro he
              rw [he] at hc
              simp at hc
            have hhead : u.head? = some c := by
              cases hut : u.take j0 with
              | nil => exact absurd hut hne
              | cons a as =>
                rw [hut] at hc
                simp at hc
                cases hu2 : u with
                | nil => rw [hu2] at hut; simp at hut
                | cons b bs =>
                  rw [hu2] at hut
                  cases hj0z : j0 with
                  | zero => rw [hj0z] at hut; simp at hut
                  | succ j1 =>
                    rw [hj0z] at hut
                    simp at hut
                    rw [← hc, ← hut.1]
                    simp
            rw [hrest1] at hbnd
            cases hu3 : u with
            | nil => rw [hu3] at hhead; simp at hhead
            | cons b bs =>
              rw [hu3] at hhead
              simp at hhead
              rw [← hhead]
              rw [hu3] at hbnd
              simp at hbnd
              simpa using hbnd

/-- A successful body attempt is a good match for one body tag. -/
theorem tryMatchBody_good (t : List Char) (p : Nat) (m : RxMatch)
    (h : tryMatchBody t p = some m) :
    m.mStart = p ∧ ∃ tag ∈ BODY_TAGS, GoodMatch t tag m := by
  simp only [tryMatchBody] at h
  obtain ⟨tag, htag, hm⟩ := List.exists_of_findSome?_eq_some h
  obtain ⟨h1, h2⟩ := tryMatchTag_good t p tag m hm
  exact ⟨h1, tag, htag, h2⟩

/-- A successful toggle attempt is a good match for the toggle tag. -/
theorem tryMatchToggle_good (t : List Char) (p : Nat) (m : RxMatch)
    (h : tryMatchToggle t p = some m) :
    m.mStart = p ∧ GoodMatch t toggleTag m :=
  tryMatchTag_good t p toggleTag m h

/-- Every element of a scan comes from a successful attempt at some
position at or after the scan start. -/
theorem scanAux_mem (f : List Char → Nat → Option RxMatch) (t : List Char)
    (hend : ∀ q m, f t q = some m → q < m.mEnd)
    (fuel p : Nat) (m : RxMatch) (hm : m ∈ scanAux f t fuel p) :
    ∃ q, p ≤ q ∧ f t q = some m := by
  induction fuel generalizing p with
  | zero => simp [scanAux] at hm
  | succ fuel ih =>
    simp only [scanAux] at hm
    split at hm
    case isTrue => simp at hm
    case isFalse hlt =>
      cases hf : f t p with
      | none =>
        rw [hf] at hm
        obtain ⟨q, hq1, hq2⟩ := ih (p + 1) hm
        exact ⟨q, by omega, hq2⟩
      | some m0 =>
        rw [hf] at hm
        rcases List.mem_cons.1 hm with he | hrest
        · exact ⟨p, Nat.le_refl p, by rw [hf, he]⟩
        · obtain ⟨q, hq1, hq2⟩ := ih m0.mEnd hrest
          have hst := hend p m0 hf
          exact ⟨q, by omega, hq2⟩

/-- Matches of a scan are ordered: each ends before the next starts,
provided every attempt matches at its own position and ends after it. -/
theorem scanAux_pairwise (f : List Char → Nat → Option RxMatch) (t : List Char)
    (hstart : ∀ q m, f t q = some m → m.mStart = q)
    (hend : ∀ q m, f t q = some m → q < m.mEnd) (fuel p : Nat) :
    (scanAux f t fuel p).Pairwise (fun a b => a.mEnd ≤ b.mStart) := by
  induction fuel generalizing p with
  | zero => simp [scanAux]
  | succ fuel ih =>
    simp only [scanAux]
    split
    case isTrue => simp
    case isFalse hlt =>
      cases hf : f t p with
      | none => exact ih (p + 1)
      | some m0 =>
        rw [List.pairwise_cons]
        constructor
        · intro b hb
          obtain ⟨q, hq1, hq2⟩ := scanAux_mem f t hend fuel m0.mEnd b hb
          have := hstart q b hq2
          omega
        · exact ih m0.mEnd

/-- Body attempts match at their position. -/
theorem tryMatchBody_start (t : List Char) : ∀ q m, tryMatchBody t q = some m → m.mStart = q := by
  intro q m h
  exact (tryMatchBody_good t q m h).1

/-- Body attempts end strictly after their position. -/
theorem tryMatchBody_endlt (t : List Char) : ∀ q m, tryMatchBody t q = some m → q < m.mEnd := by
  intro q m h
  obtain ⟨h1, tag, htag, hg⟩ := tryMatchBody_good t q m h
  obtain ⟨_, hbs, hbe, hme, _, _, _, _⟩ := hg
  omega

/-- Toggle attempts match at their position. -/
theorem tryMatchToggle_start (t : List Char) : ∀ q m, tryMatchToggle t q = some m → m.mStart = q := by
  intro q m h
  exact (tryMatchToggle_good t q m h).1

/-- Toggle attempts end strictly after their position. -/
theorem tryMatchToggle_endlt (t : List Char) : ∀ q m, tryMatchToggle t q = some m → q < m.mEnd := by
  intro q m h
  obtain ⟨h1, hg⟩ := tryMatchToggle_good t q m h
  obtain ⟨_, hbs, hbe, hme, _, _, _, _⟩ := hg
  omega

/-- Every body-scan match is a good match of some body tag. -/
theorem scanBody_good (t : List Char) (m : RxMatch) (hm : m ∈ scanBody t) :
    ∃ tag ∈ BODY_TAGS, GoodMatch t tag m := by
  obtain ⟨q, _, hq⟩ := scanAux_mem tryMatchBody t (tryMatchBody_endlt t) (t.length + 1) 0 m hm
  exact (tryMatchBody_good t q m hq).2

/-- Every toggle-scan match is a good toggle match. -/
theorem scanToggle_good (t : List Char) (m : RxMatch) (hm : m ∈ scanToggle t) :
    GoodMatch t toggleTag m := by
  obtain ⟨q, _, hq⟩ := scanAux_mem tryMatchToggle t (tryMatchToggle_endlt t) (t.length + 1) 0 m hm
  exact (tryMatchToggle_good t q m hq).2

/-- Body-scan matches are ordered and non-overlapping. -/
theorem scanBody_pairwise (t : List Char) :
    (scanBody t).Pairwise (fun a b => a.mEnd ≤ b.mStart) :=
  scanAux_pairwise tryMatchBody t (tryMatchBody_start t) (tryMatchBody_endlt t) (t.length + 1) 0

/-- Toggle-scan matches are ordered and non-overlapping. -/
theorem scanToggle_pairwise (t : List Char) :
    (scanToggle t).Pairwise (fun a b => a.mEnd ≤ b.mStart) :=
  scanAux_pairwise tryMatchToggle t (tryMatchToggle_start t) (tryMatchToggle_endlt t) (t.length + 1) 0

/-- Position bounds packaged for arithmetic reasoning. -/
theorem goodMatch_bounds (t tag : List Char) (m : RxMatch) (hg : GoodMatch t tag m) :
    m.mStart ≤ m.bodyStart ∧ m.bodyStart ≤ m.bodyEnd ∧ m.bodyEnd ≤ m.mEnd ∧
      m.mEnd ≤ t.length := by
  obtain ⟨_, hbs, hbe, hme, _, hle, _, _⟩ := hg
  omega

/-- The matched body is the document slice of its span. -/
theorem goodMatch_body_slice (t tag : List Char) (m : RxMatch) (hg : GoodMatch t tag m) :
    m.body = pySlice t m.bodyStart m.bodyEnd := by
  obtain ⟨htag, hbs, hbe, hme, hlt, hle, ⟨tail2, hdec⟩, hhd⟩ := hg
  have hassoc : t.drop m.mStart =
      ('[' :: (tag ++ (m.attrs ++ [']']))) ++
        (m.body ++ (('[' :: '/' :: (tag ++ [']'])) ++ tail2)) := by
    rw [hdec]
    simp
  have hklen : ('[' :: (tag ++ (m.attrs ++ [']']))).length =
      1 + tag.length + m.attrs.length + 1 := by
    simp
    omega
  have hdrop : t.drop m.bodyStart =
      m.body ++ (('[' :: '/' :: (tag ++ [']'])) ++ tail2) := by
    have hb2 : m.bodyStart = m.mStart + (1 + tag.length + m.attrs.length + 1) := by omega
    rw [hb2, ← List.drop_drop, hassoc, ← hklen, List.drop_left]
  rw [pySlice, hdrop]
  have hlen : m.bodyEnd - m.bodyStart = m.body.length := by omega
  rw [hlen, List.take_left]

/-- The matched block (`group(0)`) is the document slice of the whole
match span. -/
theorem goodMatch_block_slice (t tag : List Char) (m : RxMatch) (hg : GoodMatch t tag m) :
    pySlice t m.mStart m.mEnd =
      '[' :: (tag ++ (m.attrs ++ (']' :: (m.body ++ ('[' :: '/' :: (tag ++ [']'])))))) := by
  obtain ⟨htag, hbs, hbe, hme, hlt, hle, ⟨tail2, hdec⟩, hhd⟩ := hg
  have hassoc : t.drop m.mStart =
      ('[' :: (tag ++ (m.attrs ++ (']' :: (m.body ++ ('[' :: '/' :: (tag ++ [']']))))))) ++ tail2 := by
    rw [hdec]
    simp
  have hklen : ('[' :: (tag ++ (m.attrs ++ (']' :: (m.body ++ ('[' :: '/' :: (tag ++ [']']))))))).length =
      1 + tag.length + m.attrs.length + 1 + m.body.length + (tag.length + 3) := by
    simp
    omega
  rw [pySlice, hassoc]
  have hlen : m.mEnd - m.mStart =
      1 + tag.length + m.attrs.length + 1 + m.body.length + (tag.length + 3) := by omega
  rw [hlen, ← hklen, List.take_left]

/-- Every body-pass segment is built from one scan match. -/
theorem bodyPass_mem (sk : List Char) (ms : List RxMatch) (i0 : Nat) (s : Segment)
    (hs : s ∈ (bodyPass sk ms i0).1) :
    ∃ m ∈ ms, ∃ idx, s = mkBodySeg sk idx m := by
  induction ms generalizing i0 with
  | nil => simp [bodyPass] at hs
  | cons m rest ih =>
    simp only [bodyPass] at hs
    split at hs
    case isTrue =>
      obtain ⟨m1, hm1, idx, he⟩ := ih i0 hs
      exact ⟨m1, List.mem_cons_of_mem m hm1, idx, he⟩
    case isFalse =>
      rcases List.mem_cons.1 hs with he | hrest
      · exact ⟨m, List.mem_cons_self m rest, i0, he⟩
      · obtain ⟨m1, hm1, idx, he⟩ := ih (i0 + 1) hrest
        exact ⟨m1, List.mem_cons_of_mem m hm1, idx, he⟩

/-- Every toggle-pass segment is either a title segment whose ordinal
indexes its source match in the scanned list and whose text is that
match's title-attribute capture, or a body segment carrying the body
span of one scan match. -/
theorem togglePass_mem (sk : List Char) (ms : List RxMatch) (i0 o0 : Nat) (s : Segment)
    (hs : s ∈ togglePass sk ms i0 o0) :
    (s.kind = "fusion_toggle:title".data ∧ s.start? = none ∧ s.stop? = none ∧
      ∃ j m, ms[j]? = some m ∧ s.toggle_order? = some (o0 + j) ∧
        ∃ pre post, searchTitle m.attrs = some (pre, s.text, post)) ∨
    (s.kind = "fusion_toggle:body".data ∧
      ∃ m ∈ ms, s.start? = some m.bodyStart ∧ s.stop? = some m.bodyEnd ∧ s.text = m.body) := by
  induction ms generalizing i0 o0 with
  | nil => simp [togglePass] at hs
  | cons m rest ih =>
    have hlift : ∀ i1, s ∈ togglePass sk rest i1 (o0 + 1) →
        (s.kind = "fusion_toggle:title".data ∧ s.start? = none ∧ s.stop? = none ∧
          ∃ j m1, (m :: rest)[j]? = some m1 ∧ s.toggle_order? = some (o0 + j) ∧
            ∃ pre post, searchTitle m1.attrs = some (pre, s.text, post)) ∨
        (s.kind = "fusion_toggle:body".data ∧
          ∃ m1 ∈ m :: rest, s.start? = some m1.bodyStart ∧ s.stop? = some m1.bodyEnd ∧
            s.text = m1.body) := by
      intro i1 hs1
      rcases ih i1 (o0 + 1) hs1 with ⟨hk, hst, hsp, j, m1, hj, hord, pre, post, hsearch⟩ |
        ⟨hk, m1, hm1, hrest⟩
      · left
        refine ⟨hk, hst, hsp, j + 1, m1, by simpa using hj, ?_, pre, post, hsearch⟩
        rw [hord]
        congr 1
        omega
      · exact Or.inr ⟨hk, m1, List.mem_cons_of_mem m hm1, hrest⟩
    have htitle : ∀ g idx, titleOf m = some g → s = mkTitleSeg sk idx o0 g →
        (s.kind = "fusion_toggle:title".data ∧ s.start? = none ∧ s.stop? = none ∧
          ∃ j m1, (m :: rest)[j]? = some m1 ∧ s.toggle_order? = some (o0 + j) ∧
            ∃ pre post, searchTitle m1.attrs = some (pre, s.text, post)) := by
      intro g idx htO he
      subst he
      refine ⟨rfl, rfl, rfl, 0, m, by simp, by simp [mkTitleSeg], ?_⟩
      simp only [titleOf] at htO
      cases hsr : searchTitle m.attrs with
      | none => rw [hsr] at htO; simp at htO
      | some r =>
        rw [hsr] at htO
        simp at htO
        refine ⟨r.1, r.2.2, ?_⟩
        simp [mkTitleSeg, ← htO]
    simp only [togglePass] at hs
    split at hs
    case h_1 g htO =>
      split at hs
      case isTrue hcnd =>
        split at hs
        case isTrue hb =>
          simp only [List.cons_append, List.nil_append] at hs
          rcases List.mem_cons.1 hs with he | hs2
          · exact Or.inl (htitle g i0 htO he)
          rcases List.mem_cons.1 hs2 with he | hs3
          · right
            rw [he]
            exact ⟨rfl, m, List.mem_cons_self m rest, rfl, rfl, rfl⟩
          · exact hlift _ hs3
        case isFalse hb =>
          simp only [List.cons_append, List.nil_append] at hs
          rcases List.mem_cons.1 hs with he | hs2
          · exact Or.inl (htitle g i0 htO he)
          · exact hlift _ hs2
      case isFalse hcnd =>
        split at hs
        case isTrue hb =>
          simp only [List.nil_append, List.cons_append] at hs
          rcases List.mem_cons.1 hs with he | hs2
          · right
            rw [he]
            exact ⟨rfl, m, List.mem_cons_self m rest, rfl, rfl, rfl⟩
          · exact hlift _ hs2
        case isFalse hb =>
          simp only [List.nil_append] at hs
          exact hlift _ hs
    case h_2 htO =>
      split at hs
      case isTrue hb =>
        simp only [List.nil_append, List.cons_append] at hs
        rcases List.mem_cons.1 hs with he | hs2
        · right
          rw [he]
          exact ⟨rfl, m, List.mem_cons_self m rest, rfl, rfl, rfl⟩
        · exact hlift _ hs2
      case isFalse hb =>
        simp only [List.nil_append] at hs
        exact hlift _ hs

/-- The offset span of a segment, when it has one. -/
def spanOf (s : Segment) : Option (Nat × Nat) :=
  match s.start?, s.stop? with
  | some a, some b => some (a, b)
  | _, _ => none

/-- Two segments have non-overlapping half-open spans (vacuous unless
both carry spans). -/
def SpansDisjoint (a b : Segment) : Prop :=
  ∀ sa ea sb eb, spanOf a = some (sa, ea) → spanOf b = some (sb, eb) →
    ea ≤ sb ∨ eb ≤ sa

/-- Ordered version used along one pass. -/
def SpanOrdered (a b : Segment) : Prop :=
  ∀ sa ea sb eb, spanOf a = some (sa, ea) → spanOf b = some (sb, eb) → ea ≤ sb

/-- Both segments come from the same extraction pass: both body-tag
segments, or both toggle-body segments. -/
def SamePass (a b : Segment) : Prop :=
  (a.kind ∈ BODY_TAGS ∧ b.kind ∈ BODY_TAGS) ∨
  (a.kind = "fusion_toggle:body".data ∧ b.kind = "fusion_toggle:body".data)

/-- Body-pass segments are span-ordered when their matches are. -/
theorem bodyPass_pairwise (sk : List Char) (ms : List RxMatch) (i0 : Nat)
    (hord : ms.Pairwise (fun a b => a.mEnd ≤ b.mStart))
    (hb : ∀ m ∈ ms, m.bodyEnd ≤ m.mEnd ∧ m.mStart ≤ m.bodyStart) :
    (bodyPass sk ms i0).1.Pairwise SpanOrdered := by
  induction ms generalizing i0 with
  | nil => simp [bodyPass]
  | cons m rest ih =>
    rw [List.pairwise_cons] at hord
    have hbr : ∀ m1 ∈ rest, m1.bodyEnd ≤ m1.mEnd ∧ m1.mStart ≤ m1.bodyStart := by
      intro m1 hm1
      exact hb m1 (List.mem_cons_of_mem m hm1)
    simp only [bodyPass]
    split
    case isTrue => exact ih i0 hord.2 hbr
    case isFalse =>
      rw [List.pairwise_cons]
      refine ⟨?_, ih (i0 + 1) hord.2 hbr⟩
      intro y hy
      obtain ⟨m1, hm1, idx, he⟩ := bodyPass_mem sk rest (i0 + 1) y hy
      intro sa ea sb eb hsa hsb
      have h1 : spanOf (mkBodySeg sk i0 m) = some (m.bodyStart, m.bodyEnd) := rfl
      rw [h1] at hsa
      have h2 : spanOf y = some (m1.bodyStart, m1.bodyEnd) := by
        rw [he]
        rfl
      rw [h2] at hsb
      obtain ⟨he1, he2⟩ : sa = m.bodyStart ∧ ea = m.bodyEnd := by
        injection hsa with hx
        injection hx with hx1 hx2
        exact ⟨hx1.symm, hx2.symm⟩
      obtain ⟨he3, he4⟩ : sb = m1.bodyStart ∧ eb = m1.bodyEnd := by
        injection hsb with hx
        injection hx with hx1 hx2
        exact ⟨hx1.symm, hx2.symm⟩
      have hmm := hord.1 m1 hm1
      have hbm := hb m (List.mem_cons_self m rest)
      have hbm1 := hbr m1 hm1
      omega

/-- Toggle-pass segments are span-ordered when their matches are
(title segments carry no span, so the relation is vacuous at them). -/
theorem togglePass_pairwise (sk : List Char) (ms : List RxMatch) (i0 o0 : Nat)
    (hord : ms.Pairwise (fun a b => a.mEnd ≤ b.mStart))
    (hb : ∀ m ∈ ms, m.bodyEnd ≤ m.mEnd ∧ m.mStart ≤ m.bodyStart) :
    (togglePass sk ms i0 o0).Pairwise SpanOrdered := by
  induction ms generalizing i0 o0 with
  | nil => simp [togglePass]
  | cons m rest ih =>
    rw [List.pairwise_cons] at hord
    have hbr : ∀ m1 ∈ rest, m1.bodyEnd ≤ m1.mEnd ∧ m1.mStart ≤ m1.bodyStart := by
      intro m1 hm1
      exact hb m1 (List.mem_cons_of_mem m hm1)
    have hrecpw : ∀ i1, (togglePass sk rest i1 (o0 + 1)).Pairwise SpanOrdered := by
      intro i1
      exact ih i1 (o0 + 1) hord.2 hbr
    have hbody_vs_rec : ∀ i1 idx y, y ∈ togglePass sk rest i1 (o0 + 1) →
        SpanOrdered (mkToggleBodySeg sk idx o0 m) y := by
      intro i1 idx y hy
      intro sa ea sb eb hsa hsb
      rcases togglePass_mem sk rest i1 (o0 + 1) y hy with ⟨_, hst, hsp, _⟩ | ⟨_, m1, hm1, h1, h2, _⟩
      · simp only [spanOf, hst, hsp] at hsb
        exact Option.noConfusion hsb
      · have h2y : spanOf y = some (m1.bodyStart, m1.bodyEnd) := by
          simp only [spanOf, h1, h2]
        rw [h2y] at hsb
        have h1x : spanOf (mkToggleBodySeg sk idx o0 m) = some (m.bodyStart, m.bodyEnd) := rfl
        rw [h1x] at hsa
        obtain ⟨he1, he2⟩ : sa = m.bodyStart ∧ ea = m.bodyEnd := by
          injection hsa with hx
          injection hx with hx1 hx2
          exact ⟨hx1.symm, hx2.symm⟩
        obtain ⟨he3, he4⟩ : sb = m1.bodyStart ∧ eb = m1.bodyEnd := by
          injection hsb with hx
          injection hx with hx1 hx2
          exact ⟨hx1.symm, hx2.symm⟩
        have hmm := hord.1 m1 hm1
        have hbm := hb m (List.mem_cons_self m rest)
        have hbm1 := hbr m1 hm1
        omega
    have htitle_vs : ∀ idx y, SpanOrdered (mkTitleSeg sk idx o0 ((titleOf m).getD [])) y := by
      intro idx y sa ea sb eb hsa hsb
      simp only [spanOf, mkTitleSeg] at hsa
      exact Option.noConfusion hsa
    simp only [togglePass]
    split
    case h_1 g htO =>
      split
      case isTrue hcnd =>
        split
        case isTrue hbb =>
          simp only [List.cons_append, List.nil_append]
          rw [List.pairwise_cons]
          constructor
          · intro y hy
            have : mkTitleSeg sk i0 o0 g = mkTitleSeg sk i0 o0 ((titleOf m).getD []) := by
              rw [htO]
              rfl
            rw [this]
            exact htitle_vs i0 y
          rw [List.pairwise_cons]
          constructor
          · intro y hy
            exact hbody_vs_rec _ _ y hy
          exact hrecpw _
        case isFalse hbb =>
          simp only [List.cons_append, List.nil_append]
          rw [List.pairwise_cons]
          constructor
          · intro y hy
            have : mkTitleSeg sk i0 o0 g = mkTitleSeg sk i0 o0 ((titleOf m).getD []) := by
              rw [htO]
              rfl
            rw [this]
            exact htitle_vs i0 y
          exact hrecpw _
      case isFalse hcnd =>
        split
        case isTrue hbb =>
          simp only [List.nil_append, List.cons_append]
          rw [List.pairwise_cons]
          constructor
          · intro y hy
            exact hbody_vs_rec _ _ y hy
          exact hrecpw _
        case isFalse hbb =>
          simp only [List.nil_append]
          exact hrecpw _
    case h_2 htO =>
      split
      case isTrue hbb =>
        simp only [List.nil_append, List.cons_append]
        rw [List.pairwise_cons]
        constructor
        · intro y hy
          exact hbody_vs_rec _ _ y hy
        exact hrecpw _
      case isFalse hbb =>
        simp only [List.nil_append]
        exact hrecpw _

/-- Central characterization: every extracted segment is a body-pass
segment of one body match, a toggle-title segment indexed by its
match's scan position, or a toggle-body segment of one toggle match. -/
theorem extract_mem_cases (doc sk : List Char) (s : Segment)
    (hs : s ∈ extract_segments doc sk) :
    (∃ m ∈ scanBody doc, ∃ idx, s = mkBodySeg sk idx m) ∨
    (s.kind = "fusion_toggle:title".data ∧ s.start? = none ∧ s.stop? = none ∧
      ∃ j m, (scanToggle doc)[j]? = some m ∧ s.toggle_order? = some j ∧
        ∃ pre post, searchTitle m.attrs = some (pre, s.text, post)) ∨
    (s.kind = "fusion_toggle:body".data ∧
      ∃ m ∈ scanToggle doc, s.start? = some m.bodyStart ∧ s.stop? = some m.bodyEnd ∧
        s.text = m.body) := by
  simp only [extract_segments] at hs
  rw [(List.perm_insertionSort segLE _).mem_iff] at hs
  rcases List.mem_append.1 hs with h1 | h2
  · exact Or.inl (bodyPass_mem sk (scanBody doc) 0 s h1)
  · rcases togglePass_mem sk (scanToggle doc) _ 0 s h2 with
      ⟨hk, hst, hsp, j, m, hj, hord, pre, post, hsearch⟩ | hbody
    · right
      left
      refine ⟨hk, hst, hsp, j, m, hj, ?_, pre, post, hsearch⟩
      simpa using hord
    · exact Or.inr (Or.inr hbody)

/-- Closing-tag presence: right after a good match's body span the
document carries the closing literal of its tag. -/
theorem goodMatch_close_slice (t tag : List Char) (m : RxMatch) (hg : GoodMatch t tag m) :
    pySlice t m.bodyEnd (m.bodyEnd + (tag.length + 3)) = '[' :: '/' :: (tag ++ [']']) := by
  obtain ⟨htag, hbs, hbe, hme, hlt, hle, ⟨tail2, hdec⟩, hhd⟩ := hg
  have hassoc : t.drop m.mStart =
      ('[' :: (tag ++ (m.attrs ++ (']' :: m.body)))) ++
        (('[' :: '/' :: (tag ++ [']'])) ++ tail2) := by
    rw [hdec]
    simp
  have hklen : ('[' :: (tag ++ (m.attrs ++ (']' :: m.body)))).length =
      1 + tag.length + m.attrs.length + 1 + m.body.length := by
    simp
    omega
  have hdrop : t.drop m.bodyEnd = ('[' :: '/' :: (tag ++ [']'])) ++ tail2 := by
    have hb2 : m.bodyEnd = m.mStart + (1 + tag.length + m.attrs.length + 1 + m.body.length) := by
      omega
    rw [hb2, ← List.drop_drop, hassoc, ← hklen, List.drop_left]
  rw [pySlice, hdrop]
  have hlen : m.bodyEnd + (tag.length + 3) - m.bodyEnd = ('[' :: '/' :: (tag ++ [']'])).length := by
    simp
  rw [hlen, List.take_left]

/-- The amended non-overlap invariant: segments produced by the same
pass have non-overlapping spans. -/
theorem extract_pairwise_nonoverlap (doc sk : List Char) :
    (extract_segments doc sk).Pairwise (fun a b => SamePass a b → SpansDisjoint a b) := by
  have hsym : ∀ {a b : Segment}, (SamePass a b → SpansDisjoint a b) →
      (SamePass b a → SpansDisjoint b a) := by
    intro a b h hsp
    intro sa ea sb eb hsa hsb
    have hsp2 : SamePass a b := by
      rcases hsp with ⟨x, y⟩ | ⟨x, y⟩
      · exact Or.inl ⟨y, x⟩
      · exact Or.inr ⟨y, x⟩
    rcases h hsp2 sb eb sa ea hsb hsa with hc | hc
    · exact Or.inr hc
    · exact Or.inl hc
  have hbBody : ∀ m ∈ scanBody doc, m.bodyEnd ≤ m.mEnd ∧ m.mStart ≤ m.bodyStart := by
    intro m hm
    obtain ⟨tag, _, hg⟩ := scanBody_good doc m hm
    obtain ⟨_, hbs, hbe, hme, _, _, _, _⟩ := hg
    omega
  have hbTog : ∀ m ∈ scanToggle doc, m.bodyEnd ≤ m.mEnd ∧ m.mStart ≤ m.bodyStart := by
    intro m hm
    have hg := scanToggle_good doc m hm
    obtain ⟨_, hbs, hbe, hme, _, _, _, _⟩ := hg
    omega
  have hkindBody : ∀ s ∈ (bodyPass sk (scanBody doc) 0).1, s.kind ∈ BODY_TAGS := by
    intro s hsmem
    obtain ⟨m, hm, idx, he⟩ := bodyPass_mem sk (scanBody doc) 0 s hsmem
    obtain ⟨tag, htg, hg⟩ := scanBody_good doc m hm
    rw [he]
    show m.tag ∈ BODY_TAGS
    rw [hg.1]
    exact htg
  have hcore : ((bodyPass sk (scanBody doc) 0).1 ++
      togglePass sk (scanToggle doc) (bodyPass sk (scanBody doc) 0).2 0).Pairwise
      (fun a b => SamePass a b → SpansDisjoint a b) := by
    rw [List.pairwise_append]
    refine ⟨?_, ?_, ?_⟩
    · apply List.Pairwise.imp ?_
        (bodyPass_pairwise sk (scanBody doc) 0 (scanBody_pairwise doc) hbBody)
      intro a b hord hsp sa ea sb eb hsa hsb
      exact Or.inl (hord sa ea sb eb hsa hsb)
    · apply List.Pairwise.imp ?_
        (togglePass_pairwise sk (scanToggle doc) (bodyPass sk (scanBody doc) 0).2 0
          (scanToggle_pairwise doc) hbTog)
      intro a b hord hsp sa ea sb eb hsa hsb
      exact Or.inl (hord sa ea sb eb hsa hsb)
    · intro a ha b hb hsp
      have hka := hkindBody a ha
      have hno : ¬ SamePass a b := by
        intro hsp2
        rcases togglePass_mem sk (scanToggle doc) _ 0 b hb with ⟨hk, _⟩ | ⟨hk, _⟩
        · rcases hsp2 with ⟨_, hkb⟩ | ⟨hka2, _⟩
          · rw [hk] at hkb
            exact absurd hkb (by decide)
          · rw [hka2] at hka
            exact absurd hka (by decide)
        · rcases hsp2 with ⟨_, hkb⟩ | ⟨hka2, _⟩
          · rw [hk] at hkb
            exact absurd hkb (by decide)
          · rw [hka2] at hka
            exact absurd hka (by decide)
      exact absurd hsp hno
  simp only [extract_segments]
  exact ((List.perm_insertionSort segLE _).pairwise_iff hsym).2 hcore

/-- Span facts of extracted segments: a span-bearing segment's text
is exactly the document slice of its span. -/
theorem extract_span_slice (doc sk : List Char) (s : Segment) (a b : Nat)
    (hs : s ∈ extract_segments doc sk) (ha : s.start? = some a) (hb : s.stop? = some b) :
    a ≤ b ∧ b ≤ doc.length ∧ s.text = pySlice doc a b := by
  rcases extract_mem_cases doc sk s hs with ⟨m, hm, idx, he⟩ |
    ⟨_, hst, _⟩ | ⟨_, m, hm, h1, h2, h3⟩
  · obtain ⟨tag, htg, hg⟩ := scanBody_good doc m hm
    have hbounds := goodMatch_bounds doc tag m hg
    have hslice := goodMatch_body_slice doc tag m hg
    rw [he] at ha hb ⊢
    obtain ⟨ha2⟩ : a = m.bodyStart := by
      simp only [mkBodySeg] at ha
      injection ha with h
      exact h.symm
    obtain ⟨hb2⟩ : b = m.bodyEnd := by
      simp only [mkBodySeg] at hb
      injection hb with h
      exact h.symm
    exact ⟨by omega, by omega, hslice⟩
  · rw [hst] at ha
    exact Option.noConfusion ha
  · have hg := scanToggle_good doc m hm
    have hbounds := goodMatch_bounds doc toggleTag m hg
    have hslice := goodMatch_body_slice doc toggleTag m hg
    rw [h1] at ha
    rw [h2] at hb
    obtain ⟨ha2⟩ : a = m.bodyStart := by
      injection ha with h
      exact h.symm
    obtain ⟨hb2⟩ : b = m.bodyEnd := by
      injection hb with h
      exact h.symm
    rw [h3]
    exact ⟨by omega, by omega, hslice⟩

/-- Title facts of extracted segments: the ordinal indexes the toggle
scan, and the text is the title capture of that match's attributes. -/
theorem extract_title_facts (doc sk : List Char) (s : Segment)
    (hs : s ∈ extract_segments doc sk) (hk : s.kind = "fusion_toggle:title".data) :
    ∃ j m, (scanToggle doc)[j]? = some m ∧ s.toggle_order? = some j ∧
      GoodMatch doc toggleTag m ∧
      ∃ pre post, searchTitle m.attrs = some (pre, s.text, post) := by
  rcases extract_mem_cases doc sk s hs with ⟨m, hm, idx, he⟩ |
    ⟨_, _, _, j, m, hj, hord, pre, post, hsearch⟩ | ⟨hk2, _⟩
  · exfalso
    obtain ⟨tag, htg, hg⟩ := scanBody_good doc m hm
    rw [he] at hk
    have : m.tag = "fusion_toggle:title".data := hk
    rw [hg.1] at this
    rw [this] at htg
    exact absurd htg (by decide)
  · have hm : m ∈ scanToggle doc := by
      have := List.getElem?_eq_some.1 hj
      obtain ⟨hlt, hget⟩ := this
      rw [← hget]
      exact List.getElem_mem hlt
    exact ⟨j, m, hj, hord, scanToggle_good doc m hm, pre, post, hsearch⟩
  · rw [hk] at hk2
    exact absurd hk2 (by decide)

/-- Identity span replacement: when every translated text equals the
original slice, each splice reproduces the document. -/
theorem applySpans_id (tr : List TrSeg) (l : List Segment) (doc : List Char)
    (hf : ∀ s ∈ l, lookupLast tr s.id = some s.text ∧
      ∃ a b, s.start? = some a ∧ s.stop? = some b ∧ a ≤ b ∧ s.text = pySlice doc a b) :
    applySpans tr l doc = .done doc := by
  induction l with
  | nil => rfl
  | cons s rest ih =>
    obtain ⟨hlook, a, b, ha, hb, hab, htext⟩ := hf s (List.mem_cons_self s rest)
    simp only [applySpans, hlook]
    have hid : doc.take (s.start?.getD 0) ++ s.text ++ doc.drop (s.stop?.getD 0) = doc := by
      rw [ha, hb]
      simp only [Option.getD_some]
      rw [htext]
      exact splice_slice doc a b hab
    rw [hid]
    exact ih (fun s2 hs2 => hf s2 (List.mem_cons_of_mem s hs2))

/-- Identity title relocation: replacing a block's title capture by
itself leaves the block, and hence the document, unchanged. -/
theorem applyTitleStep_id (doc : List Char) (s : Segment) (j : Nat) (m : RxMatch)
    (hj : (scanToggle doc)[j]? = some m) (hord : s.toggle_order? = some j)
    (hg : GoodMatch doc toggleTag m)
    (hsearch : ∃ pre post, searchTitle m.attrs = some (pre, s.text, post)) :
    applyTitleStep doc (s.toggle_order?.getD 0) s.text = .done doc := by
  obtain ⟨pre, post, hsearch⟩ := hsearch
  obtain ⟨hlt, hget⟩ := List.getElem?_eq_some.1 hj
  rw [hord]
  simp only [Option.getD_some, applyTitleStep]
  have hne : scanToggle doc ≠ [] := by
    intro he
    rw [he] at hlt
    simp at hlt
  rw [if_neg hne, if_neg (by omega)]
  have hbm : (scanToggle doc).getD j default = m := by
    rw [List.getD_eq_getElem?_getD, hj]
    rfl
  rw [hbm]
  have hblock := goodMatch_block_slice doc toggleTag m hg
  have hbounds := goodMatch_bounds doc toggleTag m hg
  have hblock2 : pySlice doc m.mStart m.mEnd =
      TOGPFX ++ (m.attrs ++ (']' :: (m.body ++ ('[' :: '/' :: (toggleTag ++ [']']))))) := by
    rw [hblock]
    rfl
  have hsearch2 := searchTitle_block m.attrs
    (']' :: (m.body ++ ('[' :: '/' :: (toggleTag ++ [']'])))) pre s.text post
    hg.2.2.2.2.2.2.2 hsearch
  have hrepl : replace_toggle_title (pySlice doc m.mStart m.mEnd) s.text =
      pySlice doc m.mStart m.mEnd := by
    rw [hblock2, replace_toggle_title, hsearch2]
    obtain ⟨hdec, _, _⟩ := searchTitleAux_sound none m.attrs pre s.text post hsearch
    conv_rhs => rw [hdec]
    simp
  rw [hrepl]
  rw [splice_slice doc m.mStart m.mEnd (by omega)]

/-- The title loop is the identity under identity translations. -/
theorem applyTitles_id (tr : List TrSeg) (l : List Segment) (doc : List Char)
    (hf : ∀ s ∈ l, lookupLast tr s.id = some s.text ∧
      ∃ j m, (scanToggle doc)[j]? = some m ∧ s.toggle_order? = some j ∧
        GoodMatch doc toggleTag m ∧
        ∃ pre post, searchTitle m.attrs = some (pre, s.text, post)) :
    applyTitles tr l doc = .done doc := by
  induction l with
  | nil => rfl
  | cons s rest ih =>
    obtain ⟨hlook, j, m, hj, hord, hg, hsearch⟩ := hf s (List.mem_cons_self s rest)
    simp only [applyTitles, hlook]
    rw [applyTitleStep_id doc s j m hj hord hg hsearch]
    exact ih (fun s2 hs2 => hf s2 (List.mem_cons_of_mem s hs2))

/-- C3: round-trip identity.  For every container document and source
key, if the applier receives a translated set in which every
extracted segment's id maps to that segment's original text, the
output document equals the original byte for byte (model:
`cmd_apply_doc` returns `.done` of the original document, performing
the single output write with unchanged content). -/
theorem C3_round_trip_identity (doc sk : List Char) (tr : List TrSeg)
    (hid : ∀ s ∈ extract_segments doc sk, lookupLast tr s.id = some s.text) :
    cmd_apply_doc doc sk ((extract_segments doc sk).map (fun s => ExSeg.mk s.id)) tr
      = .done doc := by
  simp only [cmd_apply_doc]
  have hmiss : ((extract_segments doc sk).map (fun s => ExSeg.mk s.id)).filter
      (fun e => (lookupLast tr e.id).isNone) = [] := by
    rw [List.filter_eq_nil_iff]
    intro e he
    obtain ⟨s, hsmem, hes⟩ := List.mem_map.1 he
    rw [← hes]
    simp [hid s hsmem]
  rw [if_neg (by intro hcon; exact hcon hmiss)]
  have hspans : applySpans tr
      (((extract_segments doc sk).filter (fun s => s.start?.isSome && s.stop?.isSome)).reverse)
      doc = .done doc := by
    apply applySpans_id
    intro s hs
    rw [List.mem_reverse] at hs
    obtain ⟨hmem, hcond⟩ := List.mem_filter.1 hs
    rw [Bool.and_eq_true] at hcond
    obtain ⟨hc1, hc2⟩ := hcond
    cases ha : s.start? with
    | none => rw [ha] at hc1; simp at hc1
    | some a =>
      cases hb : s.stop? with
      | none => rw [hb] at hc2; simp at hc2
      | some b =>
        obtain ⟨hab, hble, htext⟩ := extract_span_slice doc sk s a b hmem ha hb
        exact ⟨hid s hmem, a, b, rfl, rfl, hab, htext⟩
  rw [hspans]
  apply applyTitles_id
  intro s hs
  obtain ⟨hmem, hcond⟩ := List.mem_filter.1 hs
  have hk : s.kind = "fusion_toggle:title".data := eq_of_beq hcond
  obtain ⟨j, m, hj, hord, hg, hse⟩ := extract_title_facts doc sk s hmem hk
  exact ⟨hid s hmem, j, m, hj, hord, hg, hse⟩

/-- Concrete document for the round-trip witness. -/
def rtDoc : List Char :=
  "[fusion_text]Hi[/fusion_text][fusion_toggle title=\"T\"]B[/fusion_toggle]".data

/-- Concrete source key for the round-trip witness. -/
def rtKey : List Char := "container_001.txt".data

/-- Identity translated set for the round-trip witness. -/
def rtTr : List TrSeg := (extract_segments rtDoc rtKey).map (fun s => TrSeg.mk s.id s.text)

set_option maxRecDepth 100000 in
/-- Witness for C3 at a concrete document: the hypothesis holds by
computation and the applier reproduces the document. -/
theorem C3_round_trip_identity_witness :
    (∀ s ∈ extract_segments rtDoc rtKey, lookupLast rtTr s.id = some s.text) ∧
    cmd_apply_doc rtDoc rtKey ((extract_segments rtDoc rtKey).map (fun s => ExSeg.mk s.id))
      rtTr = .done rtDoc :=
  ⟨by decide, C3_round_trip_identity rtDoc rtKey rtTr (by decide)⟩

/-- C6: completeness enforcement and atomicity on error.  When at
least one extracted id has no entry in the translated set, the
applier fails with the missing-ids error before performing any
replacement, and produces no output document (the `.fail` result is
returned before the extraction and splicing steps run, so no output
file is written for the document). -/
theorem C6_completeness_enforcement (raw sk : List Char) (exs : List ExSeg)
    (tr : List TrSeg) (hmissing : ∃ e ∈ exs, lookupLast tr e.id = none) :
    cmd_apply_doc raw sk exs tr = .fail "Missing translated segment IDs".data := by
  simp only [cmd_apply_doc]
  rw [if_pos]
  obtain ⟨e, he, hl⟩ := hmissing
  apply List.ne_nil_of_mem
  show e ∈ _
  rw [List.mem_filter]
  exact ⟨he, by rw [hl]; rfl⟩

/-- Witness for C6: one extracted id, an empty translated set. -/
theorem C6_completeness_enforcement_witness :
    (∃ e ∈ [ExSeg.mk "a1b2".data], lookupLast [] e.id = none) ∧
    cmd_apply_doc "x".data "k".data [ExSeg.mk "a1b2".data] []
      = .fail "Missing translated segment IDs".data :=
  ⟨⟨ExSeg.mk "a1b2".data, by simp, rfl⟩,
    C6_completeness_enforcement "x".data "k".data [ExSeg.mk "a1b2".data] []
      ⟨ExSeg.mk "a1b2".data, by simp, rfl⟩⟩

/-- C8: deny-list override.  Any candidate whose lowercased text
contains the literal `off_toggle]` is marked corrupt by the integrity
predicate, for every original text — also when the bracket-token
sequences agree. -/
theorem C8_deny_list_override (original candidate : List Char)
    (h : containsSub (candidate.map Char.toLower) "off_toggle]".data = true) :
    is_corrupt original candidate = true := by
  unfold is_corrupt
  split
  · rfl
  · rw [if_pos]
    rw [List.any_eq_true]
    exact ⟨"off_toggle]".data, by simp [BAD_TOKENS], h⟩

/-- Witness for C8: equal bracket tokens, deny-listed substring. -/
theorem C8_deny_list_override_witness :
    containsSub ("a [x] OFF_toggle] b".data.map Char.toLower) "off_toggle]".data = true ∧
    is_corrupt "a [x] z".data "a [x] OFF_toggle] b".data = true ∧
    bracketTokens "a [x] z".data = bracketTokens "a [x] OFF_toggle] b".data :=
  ⟨by decide,
    C8_deny_list_override "a [x] z".data "a [x] OFF_toggle] b".data (by decide),
    by decide⟩

/-- Document on which offset-bearing segments of different passes
overlap: the body-tag match swallows a whole toggle construct. -/
def c2doc : List Char :=
  "[fusion_title]A[fusion_toggle]B[/fusion_toggle]C[/fusion_title]".data

/-- C2 counterexample: the extraction of `c2doc` yields a body
segment spanning [14, 48) and a toggle-body segment spanning
[30, 31), which overlap, refuting the claim that any two distinct
offset-bearing segments of one run have non-overlapping spans. -/
theorem C2_counterexample :
    ¬ (extract_segments c2doc "k".data).Pairwise SpansDisjoint := by
  intro h
  have hl : extract_segments c2doc "k".data =
      [{ id := stable_id "k".data "fusion_title".data 0 14 48
            "A[fusion_toggle]B[/fusion_toggle]C".data,
         kind := "fusion_title".data, start? := some 14, stop? := some 48,
         toggle_order? := none, text := "A[fusion_toggle]B[/fusion_toggle]C".data },
       { id := stable_id "k".data "fusion_toggle:body".data 1 30 31 "B".data,
         kind := "fusion_toggle:body".data, start? := some 30, stop? := some 31,
         toggle_order? := some 0, text := "B".data }] := by
    rfl
  rw [hl, List.pairwise_cons] at h
  have hd := h.1 _ (List.mem_cons_self _ _) 14 48 30 31 rfl rfl
  rcases hd with hd | hd <;> omega

/-- C2 amended: any two distinct offset-bearing segments produced by
the same pass of one extraction run (both body-tag segments, or both
toggle-body segments) have non-overlapping spans; overlap is possible
only between a body-tag segment and a toggle segment nested inside
it. -/
theorem C2_amended_nonoverlap (doc sk : List Char) :
    (extract_segments doc sk).Pairwise (fun a b => SamePass a b → SpansDisjoint a b) :=
  extract_pairwise_nonoverlap doc sk

/-- C4 counterexample: a pair with candidate equal to the original is
marked corrupt because the text contains a deny-listed substring, so
the predicate does not hold `candidate = original` harmless. -/
theorem C4_counterexample :
    is_corrupt "on_toggle]".data "on_toggle]".data = true := by decide

/-- C4 amended: the integrity predicate marks a pair corrupt whenever
the bracket-token sequences differ, and marks an identical pair
non-corrupt unless the text contains a deny-listed substring
(case-insensitively). -/
theorem C4_amended_integrity (original candidate : List Char) :
    (bracketTokens original ≠ bracketTokens candidate → is_corrupt original candidate = true) ∧
    ((∀ b ∈ BAD_TOKENS, containsSub (original.map Char.toLower) b = false) →
      is_corrupt original original = false) := by
  constructor
  · intro hne
    unfold is_corrupt
    rw [if_pos hne]
  · intro hclean
    unfold is_corrupt
    rw [if_neg (by intro hcon; exact hcon rfl)]
    rw [if_neg]
    intro hcon
    rw [List.any_eq_true] at hcon
    obtain ⟨b, hb, hcb⟩ := hcon
    rw [hclean b hb] at hcb
    cases hcb

/-- Witness for C4 amended, at concrete texts. -/
theorem C4_amended_integrity_witness :
    (bracketTokens "[a]".data ≠ bracketTokens "[b]".data ∧
      is_corrupt "[a]".data "[b]".data = true) ∧
    ((∀ b ∈ BAD_TOKENS, containsSub ("[a] ok".data.map Char.toLower) b = false) ∧
      is_corrupt "[a] ok".data "[a] ok".data = false) :=
  ⟨⟨by decide, (C4_amended_integrity "[a]".data "[b]".data).1 (by decide)⟩,
    ⟨by decide, (C4_amended_integrity "[a] ok".data "whatever".data).2 (by decide)⟩⟩

/-- C9: extractor totality.  The extractor is a total function of the
document and source key in this embedding (it is defined for every
input string and raises nothing); this theorem captures the
best-effort contract: every span-bearing segment it emits comes from
a properly closed occurrence — its text is the document slice of its
span and the document carries the closing literal of its construct
right after the span.  An occurrence with no closing tag therefore
contributes no segment. -/
theorem C9_extractor_totality (text sk : List Char) (s : Segment) (a b : Nat)
    (hs : s ∈ extract_segments text sk) (ha : s.start? = some a) (hb : s.stop? = some b) :
    a ≤ b ∧ b ≤ text.length ∧ s.text = pySlice text a b ∧
    ∃ tag, pySlice text b (b + (tag.length + 3)) = '[' :: '/' :: (tag ++ [']']) ∧
      (s.kind = tag ∨ (s.kind = "fusion_toggle:body".data ∧ tag = toggleTag)) := by
  obtain ⟨hab, hble, htext⟩ := extract_span_slice text sk s a b hs ha hb
  refine ⟨hab, hble, htext, ?_⟩
  rcases extract_mem_cases text sk s hs with ⟨m, hm, idx, he⟩ |
    ⟨_, hst, _⟩ | ⟨hk, m, hm, h1, h2, h3⟩
  · obtain ⟨tag, htg, hg⟩ := scanBody_good text m hm
    have hclose := goodMatch_close_slice text tag m hg
    have hbeq : b = m.bodyEnd := by
      rw [he] at hb
      simp only [mkBodySeg] at hb
      injection hb with h
      exact h.symm
    refine ⟨tag, by rw [hbeq]; exact hclose, Or.inl ?_⟩
    rw [he]
    show m.tag = tag
    exact hg.1
  · rw [hst] at ha
    exact Option.noConfusion ha
  · have hg := scanToggle_good text m hm
    have hclose := goodMatch_close_slice text toggleTag m hg
    have hbeq : b = m.bodyEnd := by
      rw [h2] at hb
      injection hb with h
      exact h.symm
    exact ⟨toggleTag, by rw [hbeq]; exact hclose, Or.inr ⟨hk, rfl⟩⟩

/-- The concrete segment of the C9 witness. -/
def c9seg : Segment :=
  { id := stable_id "k".data "fusion_title".data 0 14 15 "x".data,
    kind := "fusion_title".data, start? := some 14, stop? := some 15,
    toggle_order? := none, text := "x".data }

set_option maxRecDepth 100000 in
/-- Witness for C9 at a concrete document and segment. -/
theorem C9_extractor_totality_witness :
    c9seg ∈ extract_segments "[fusion_title]x[/fusion_title]".data "k".data ∧
    (14 ≤ 15 ∧ 15 ≤ ("[fusion_title]x[/fusion_title]".data).length ∧
      c9seg.text = pySlice "[fusion_title]x[/fusion_title]".data 14 15 ∧
      ∃ tag, pySlice "[fusion_title]x[/fusion_title]".data 15 (15 + (tag.length + 3))
          = '[' :: '/' :: (tag ++ [']']) ∧
        (c9seg.kind = tag ∨ (c9seg.kind = "fusion_toggle:body".data ∧ tag = toggleTag))) :=
  ⟨by decide,
    C9_extractor_totality "[fusion_title]x[/fusion_title]".data "k".data c9seg 14 15
      (by decide) rfl rfl⟩

/-- Document of the C7 counterexample: one body segment, one toggle
with a title. -/
def c7doc : List Char :=
  "[fusion_text]A[/fusion_text][fusion_toggle title=\"T\"]B[/fusion_toggle]".data

/-- Source key of the C7 counterexample. -/
def c7key : List Char := "c.txt".data

/-- Translated set of the C7 counterexample: the body text `A` is
translated to a string that itself contains a complete toggle block
whose opening tag has no title attribute but whose body contains
`title="y"`; the title segment is translated to `NEWT`. -/
def c7tr : List TrSeg :=
  (extract_segments c7doc c7key).map (fun s =>
    TrSeg.mk s.id
      (if s.text = "A".data then "[fusion_toggle]x title=\"y\" z[/fusion_toggle]".data
       else if s.text = "T".data then "NEWT".data
       else s.text))

/-- Extracted-id list of the C7 counterexample. -/
def c7exs : List ExSeg := (extract_segments c7doc c7key).map (fun s => ExSeg.mk s.id)

/-- The document after the offset replacements of the C7 scenario:
the first toggle block found by the re-scan is now the injected one,
whose opening tag `[fusion_toggle]` carries no title attribute. -/
def c7mid : List Char :=
  "[fusion_text][fusion_toggle]x title=\"y\" z[/fusion_toggle][/fusion_text][fusion_toggle title=\"T\"]B[/fusion_toggle]".data

/-- The output the applier actually produces: the `title=\"y\"`
occurrence inside the injected block's body is replaced. -/
def c7out : List Char :=
  "[fusion_text][fusion_toggle]x title=\"NEWT\" z[/fusion_toggle][/fusion_text][fusion_toggle title=\"T\"]B[/fusion_toggle]".data

set_option maxRecDepth 400000 in
/-- C7 counterexample: the title segment's relocation selects the
injected block, whose OPENING TAG contains no `title="…"` attribute
(third conjunct), yet the applier does not leave the block unchanged:
it rewrites the `title="y"` occurrence in the block's BODY, so the
final document differs from `c7mid`, the output the claim predicts
(second conjunct). -/
theorem C7_counterexample :
    cmd_apply_doc c7doc c7key c7exs c7tr = .done c7out ∧
    c7out ≠ c7mid ∧
    searchTitle "[fusion_toggle]".data = none := by
  refine ⟨by decide, by decide, by decide⟩

/-- A quote-free capture followed by a quote splits as expected. -/
theorem splitAtQuote_complete (g post : List Char) (hg : '"' ∉ g) :
    splitAtQuote (g ++ '"' :: post) = some (g, post) := by
  induction g with
  | nil => simp [splitAtQuote]
  | cons c rest ih =>
    simp only [List.cons_append, splitAtQuote]
    rw [if_neg (by intro he; exact hg (by rw [he]; simp))]
    simp only [List.append_eq]
    rw [ih (by intro hc; exact hg (List.mem_cons_of_mem c hc))]
    rfl

/-- Inverse boundary step. -/
theorem bOkAt_cons_inv (p : Option Char) (c : Char) (pre : List Char)
    (h : bOkAt p (c :: pre)) : bOkAt (some c) pre := by
  cases hp : pre with
  | nil =>
    rw [hp] at h
    simp only [bOkAt, List.getLast?] at h
    simp only [bOkAt, List.getLast?_nil, bOk]
    simpa using h
  | cons c2 rest2 =>
    rw [hp] at h
    simpa only [bOkAt, List.getLast?_cons_cons] using h

/-- Completeness of the scanner: where a boundary-respecting
occurrence with a closing quote exists, the scan does not fail. -/
theorem searchTitleAux_complete (p : Option Char) (pre g post : List Char)
    (hg : '"' ∉ g) (hb : bOkAt p pre)
    (h : searchTitleAux p (pre ++ TQ ++ g ++ '"' :: post) = none) : False := by
  induction pre generalizing p with
  | nil =>
    rw [show ([] : List Char) ++ TQ ++ g ++ '"' :: post =
      't' :: ('i' :: 't' :: 'l' :: 'e' :: '=' :: '"' :: (g ++ '"' :: post)) from rfl] at h
    simp only [searchTitleAux] at h
    rw [if_pos] at h
    · rw [show ('t' :: ('i' :: 't' :: 'l' :: 'e' :: '=' :: '"' :: (g ++ '"' :: post))).drop 7 =
        g ++ '"' :: post from rfl] at h
      rw [splitAtQuote_complete g post hg] at h
      exact Option.noConfusion h
    · constructor
      · simpa [bOkAt, List.getLast?] using hb
      · simp [startsWith, TQ]
  | cons c pre2 ih =>
    rw [show (c :: pre2) ++ TQ ++ g ++ '"' :: post =
      c :: (pre2 ++ TQ ++ g ++ '"' :: post) from rfl] at h
    simp only [searchTitleAux] at h
    have hrec : searchTitleAux (some c) (pre2 ++ TQ ++ g ++ '"' :: post) = none := by
      split at h
      · cases hsq : splitAtQuote ((c :: (pre2 ++ TQ ++ g ++ '"' :: post)).drop 7) with
        | some pr =>
          obtain ⟨g0, post0⟩ := pr
          rw [hsq] at h
          simp only [] at h
          exact Option.noConfusion h
        | none =>
          rw [hsq] at h
          simp only [] at h
          exact Option.map_eq_none.1 h
      · exact Option.map_eq_none.1 h
    exact ih (some c) (bOkAt_cons_inv p c pre2 hb) hrec

/-- C7 amended: title relocation.  (1) When a block contains no
boundary-respecting `title="…"` occurrence with a closing quote —
anywhere in the block, not only in its opening tag — the block is
left entirely unchanged.  (2) When the block does contain one, the
applier replaces the FIRST such occurrence anywhere in the block
(opening tag, body or closing tag) with the translated value.
(3) When a title segment's ordinal is not below the number of toggle
blocks of the edited document, the applier behaves exactly as for the
last available block. -/
theorem C7_amended_title_relocation :
    (∀ block nt, (∀ pre g post, ¬(block = pre ++ TQ ++ g ++ '"' :: post ∧
        '"' ∉ g ∧ bOkAt none pre)) →
      replace_toggle_title block nt = block) ∧
    (∀ block nt pre g post, searchTitle block = some (pre, g, post) →
      replace_toggle_title block nt = pre ++ TQ ++ nt ++ '"' :: post ∧
        block = pre ++ TQ ++ g ++ '"' :: post) ∧
    (∀ out order nt, scanToggle out ≠ [] → (scanToggle out).length ≤ order →
      applyTitleStep out order nt = applyTitleStep out ((scanToggle out).length - 1) nt) := by
  refine ⟨?_, ?_, ?_⟩
  · intro block nt h
    cases hsr : searchTitle block with
    | none => simp only [replace_toggle_title, hsr]
    | some r =>
      exfalso
      obtain ⟨hdec, hgq, hbk⟩ := searchTitleAux_sound none block r.1 r.2.1 r.2.2 (by
        rw [← hsr]
        rfl)
      exact h r.1 r.2.1 r.2.2 ⟨hdec, hgq, hbk⟩
  · intro block nt pre g post hsr
    constructor
    · simp only [replace_toggle_title, hsr]
    · exact (searchTitleAux_sound none block pre g post hsr).1
  · intro out order nt hne hord
    simp only [applyTitleStep]
    rw [if_neg hne, if_neg hne]
    have hlen : 0 < (scanToggle out).length := List.length_pos.2 hne
    rw [if_pos hord, if_neg (by omega)]

/-- Witness for C7 amended: a block with no title occurrence is
unchanged; a block with one in its body is rewritten there; an
out-of-range ordinal behaves like the last block. -/
theorem C7_amended_title_relocation_witness :
    ((∀ pre g post, ¬(("[fusion_toggle]x[/fusion_toggle]".data : List Char) =
        pre ++ TQ ++ g ++ '"' :: post ∧ '"' ∉ g ∧ bOkAt none pre)) ∧
      replace_toggle_title "[fusion_toggle]x[/fusion_toggle]".data "N".data =
        "[fusion_toggle]x[/fusion_toggle]".data) ∧
    (searchTitle "[a title=\"y\" b]".data =
        some ("[a ".data, "y".data, " b]".data) ∧
      replace_toggle_title "[a title=\"y\" b]".data "N".data = "[a title=\"N\" b]".data) ∧
    (scanToggle "[fusion_toggle]x[/fusion_toggle]".data ≠ [] ∧
      applyTitleStep "[fusion_toggle]x[/fusion_toggle]".data 5 "N".data =
        applyTitleStep "[fusion_toggle]x[/fusion_toggle]".data
          ((scanToggle "[fusion_toggle]x[/fusion_toggle]".data).length - 1) "N".data) := by
  have hno : ∀ pre g post, ¬(("[fusion_toggle]x[/fusion_toggle]".data : List Char) =
      pre ++ TQ ++ g ++ '"' :: post ∧ '"' ∉ g ∧ bOkAt none pre) := by
    intro pre g post hcon
    obtain ⟨hdec, hgq, hbk⟩ := hcon
    apply searchTitleAux_complete none pre g post hgq hbk
    rw [← hdec]
    decide
  refine ⟨⟨hno, C7_amended_title_relocation.1 _ "N".data hno⟩, ?_, ?_⟩
  · have hsr : searchTitle "[a title=\"y\" b]".data =
        some ("[a ".data, "y".data, " b]".data) := by decide
    have := C7_amended_title_relocation.2.1 "[a title=\"y\" b]".data "N".data
      "[a ".data "y".data " b]".data hsr
    exact ⟨hsr, by rw [this.1]; decide⟩
  · have hne : scanToggle "[fusion_toggle]x[/fusion_toggle]".data ≠ [] := by decide
    exact ⟨hne, C7_amended_title_relocation.2.2 _ 5 "N".data hne (by decide)⟩

/-- Step equation: a raising attempt. -/
theorem runAux_succ_raise (oracle : Nat → SvcOut) (segments : List TrSeg)
    (k n : Nat) (last : Option TErr) (c : Nat) (ho : oracle n = .raise c) :
    runAux oracle segments (k + 1) n last =
      { result := (runAux oracle segments k (n + 1) (some (.svc c))).result,
        calls := (runAux oracle segments k (n + 1) (some (.svc c))).calls + 1,
        sleeps := n :: (runAux oracle segments k (n + 1) (some (.svc c))).sleeps } := by
  simp only [runAux, ho]

/-- Step equation: a response failing validation. -/
theorem runAux_succ_invalid (oracle : Nat → SvcOut) (segments : List TrSeg)
    (k n : Nat) (last : Option TErr) (resp : List TrSeg) (e : TErr)
    (ho : oracle n = .reply resp) (hv : validateOnce segments resp = some e) :
    runAux oracle segments (k + 1) n last =
      { result := (runAux oracle segments k (n + 1) (some e)).result,
        calls := (runAux oracle segments k (n + 1) (some e)).calls + 1,
        sleeps := n :: (runAux oracle segments k (n + 1) (some e)).sleeps } := by
  simp only [runAux, ho, hv]

/-- Step equation: a validated response returns immediately. -/
theorem runAux_succ_valid (oracle : Nat → SvcOut) (segments : List TrSeg)
    (k n : Nat) (last : Option TErr) (resp : List TrSeg)
    (ho : oracle n = .reply resp) (hv : validateOnce segments resp = none) :
    runAux oracle segments (k + 1) n last =
      { result := .ok resp, calls := 1, sleeps := [] } := by
  simp only [runAux, ho, hv]

/-- The retry loop never invokes the service more often than the
remaining attempt budget. -/
theorem runAux_calls_le (oracle : Nat → SvcOut) (segments : List TrSeg) :
    ∀ k n last, (runAux oracle segments k n last).calls ≤ k := by
  intro k
  induction k with
  | zero => intro n last; exact Nat.le_refl 0
  | succ k ih =>
    intro n last
    cases ho : oracle n with
    | raise c =>
      rw [runAux_succ_raise oracle segments k n last c ho]
      have := ih (n + 1) (some (.svc c))
      show (runAux oracle segments k (n + 1) (some (.svc c))).calls + 1 ≤ k + 1
      omega
    | reply resp =>
      cases hv : validateOnce segments resp with
      | some e =>
        rw [runAux_succ_invalid oracle segments k n last resp e ho hv]
        have := ih (n + 1) (some e)
        show (runAux oracle segments k (n + 1) (some e)).calls + 1 ≤ k + 1
        omega
      | none =>
        rw [runAux_succ_valid oracle segments k n last resp ho hv]
        show 1 ≤ k + 1
        omega

/-- When every remaining attempt fails, the loop consumes the whole
budget, sleeps after every attempt with the attempt number as backoff
exponent, and propagates the last error. -/
theorem runAux_all_fail (oracle : Nat → SvcOut) (segments : List TrSeg) :
    ∀ k n last, (∀ i, n ≤ i → i < n + k → (errOf oracle segments i).isSome = true) →
    runAux oracle segments k n last =
      { result := .err (if k = 0 then last else errOf oracle segments (n + k - 1)),
        calls := k, sleeps := List.range' n k } := by
  intro k
  induction k with
  | zero => intro n last h; rfl
  | succ k ih =>
    intro n last h
    have hshift : ∀ i, n + 1 ≤ i → i < n + 1 + k → (errOf oracle segments i).isSome = true := by
      intro i hi1 hi2
      exact h i (by omega) (by omega)
    have hfin : ∀ e, errOf oracle segments n = some e →
        { result := TRes.err (if k = 0 then some e else errOf oracle segments (n + 1 + k - 1)),
          calls := k + 1, sleeps := n :: List.range' (n + 1) k } =
        { result := TRes.err (if k + 1 = 0 then last else errOf oracle segments (n + (k + 1) - 1)),
          calls := k + 1, sleeps := List.range' n (k + 1) : RunResult } := by
      intro e herr
      rw [List.range'_succ]
      cases k with
      | zero =>
        simp only [if_pos rfl, Nat.succ_ne_zero, if_false]
        rw [show n + (0 + 1) - 1 = n from by omega, herr]
        simp
      | succ k2 =>
        rw [if_neg (by omega), if_neg (by omega),
          show n + 1 + (k2 + 1) - 1 = n + (k2 + 1 + 1) - 1 from by omega]
    cases ho : oracle n with
    | raise c =>
      have herr : errOf oracle segments n = some (.svc c) := by
        simp [errOf, ho]
      rw [runAux_succ_raise oracle segments k n last c ho, ih (n + 1) (some (.svc c)) hshift]
      exact hfin (.svc c) herr
    | reply resp =>
      cases hv : validateOnce segments resp with
      | some e =>
        have herr : errOf oracle segments n = some e := by
          simp [errOf, ho, hv]
        rw [runAux_succ_invalid oracle segments k n last resp e ho hv,
          ih (n + 1) (some e) hshift]
        exact hfin e herr
      | none =>
        exfalso
        have := h n (by omega) (by omega)
        rw [errOf, ho] at this
        simp only [] at this
        rw [hv] at this
        cases this

/-- When the first `j` attempts fail and attempt `j` returns a
validated response, the loop returns that response after `j + 1`
invocations, having slept with the attempt numbers before `j` as
backoff exponents. -/
theorem runAux_first_success (oracle : Nat → SvcOut) (segments : List TrSeg) :
    ∀ j k n last resp, j < k →
    (∀ i, n ≤ i → i < n + j → (errOf oracle segments i).isSome = true) →
    oracle (n + j) = .reply resp → validateOnce segments resp = none →
    runAux oracle segments k n last =
      { result := .ok resp, calls := j + 1, sleeps := List.range' n j } := by
  intro j
  induction j with
  | zero =>
    intro k n last resp hjk hfails ho hv
    cases k with
    | zero => omega
    | succ k2 =>
      rw [show n + 0 = n from rfl] at ho
      rw [runAux_succ_valid oracle segments k2 n last resp ho hv]
      rfl
  | succ j ih =>
    intro k n last resp hjk hfails ho hv
    cases k with
    | zero => omega
    | succ k2 =>
      have hshift : ∀ i, n + 1 ≤ i → i < n + 1 + j → (errOf oracle segments i).isSome = true := by
        intro i hi1 hi2
        exact hfails i (by omega) (by omega)
      have ho2 : oracle (n + 1 + j) = .reply resp := by
        rw [show n + 1 + j = n + (j + 1) from by omega]
        exact ho
      have hfirst : (errOf oracle segments n).isSome = true :=
        hfails n (by omega) (by omega)
      cases hon : oracle n with
      | raise c =>
        rw [runAux_succ_raise oracle segments k2 n last c hon,
          ih k2 (n + 1) (some (.svc c)) resp (by omega) hshift ho2 hv]
        rw [List.range'_succ]
      | reply resp0 =>
        cases hv0 : validateOnce segments resp0 with
        | some e =>
          rw [runAux_succ_invalid oracle segments k2 n last resp0 e hon hv0,
            ih k2 (n + 1) (some e) resp (by omega) hshift ho2 hv]
          rw [List.range'_succ]
        | none =>
          exfalso
          rw [errOf, hon] at hfirst
          simp only [] at hfirst
          rw [hv0] at hfirst
          cases hfirst

/-- C10: batch retry machine.  For `max_retries = M ≥ 1`: the service
is invoked at most `M` times; when every one of the `M` attempts
fails (a raised service error, a cardinality mismatch, a missing id,
or an integrity rejection), the run performs exactly `M` invocations,
sleeps after each failed attempt with backoff exponent equal to the
0-based attempt number (duration `sleep_base * 2 ^ n`), and
propagates the error of the last attempt; and when the first `j`
attempts fail and attempt `j` returns a response passing all three
validation checks, that response is returned immediately after
`j + 1` invocations with sleeps of exponents `0 .. j-1` and no
further attempts. -/
theorem C10_retry_machine (oracle : Nat → SvcOut) (segments : List TrSeg) (M : Nat)
    (hM : 1 ≤ M) :
    (translate_segments_model oracle segments M).calls ≤ M ∧
    ((∀ n, n < M → (errOf oracle segments n).isSome = true) →
      translate_segments_model oracle segments M =
        { result := .err (errOf oracle segments (M - 1)), calls := M,
          sleeps := List.range M }) ∧
    (∀ j resp, j < M → (∀ n, n < j → (errOf oracle segments n).isSome = true) →
      oracle j = .reply resp → validateOnce segments resp = none →
      translate_segments_model oracle segments M =
        { result := .ok resp, calls := j + 1, sleeps := List.range j }) := by
  refine ⟨runAux_calls_le oracle segments M 0 none, ?_, ?_⟩
  · intro hfail
    rw [translate_segments_model,
      runAux_all_fail oracle segments M 0 none (by
        intro i hi1 hi2
        exact hfail i (by omega))]
    rw [if_neg (by omega), List.range_eq_range']
    rw [show 0 + M - 1 = M - 1 from by omega]
  · intro j resp hjM hfails ho hv
    rw [translate_segments_model,
      runAux_first_success oracle segments j M 0 none resp hjM (by
        intro i hi1 hi2
        exact hfails i (by omega)) (by simpa using ho) hv]
    rw [List.range_eq_range']

/-- Oracle of the C10 witness: the first attempt raises, the second
returns a validated response. -/
def c10oracle : Nat → SvcOut :=
  fun n => if n = 0 then .raise 7 else .reply [TrSeg.mk "a".data "b".data]

/-- Input segments of the C10 witness. -/
def c10segs : List TrSeg := [TrSeg.mk "a".data "x".data]

/-- Witness for C10: with `M = 3`, one failure then success gives two
invocations, one sleep with exponent 0, and the validated response. -/
theorem C10_retry_machine_witness :
    1 ≤ 3 ∧
    ((translate_segments_model c10oracle c10segs 3).calls ≤ 3 ∧
    ((∀ n, n < 3 → (errOf c10oracle c10segs n).isSome = true) →
      translate_segments_model c10oracle c10segs 3 =
        { result := .err (errOf c10oracle c10segs 2), calls := 3,
          sleeps := List.range 3 }) ∧
    (∀ j resp, j < 3 → (∀ n, n < j → (errOf c10oracle c10segs n).isSome = true) →
      c10oracle j = .reply resp → validateOnce c10segs resp = none →
      translate_segments_model c10oracle c10segs 3 =
        { result := .ok resp, calls := j + 1, sleeps := List.range j })) :=
  ⟨by omega, C10_retry_machine c10oracle c10segs 3 (by omega)⟩

/-- Concrete run of the C10 witness oracle, checking the machine's
trace end to end. -/
theorem c10_trace_run :
    translate_segments_model c10oracle c10segs 3 =
      { result := .ok [TrSeg.mk "a".data "b".data], calls := 2, sleeps := [0] } := by
  decide

/-- The document of the concrete scenario. -/
def c1doc : List Char :=
  "[fusion_title]Hello[/fusion_title][fusion_toggle title=\"Open\"]World[/fusion_toggle]".data

/-- Id of the body segment (`Hello`, span [14, 19), ordinal 0). -/
def idH (sk : List Char) : List Char := stable_id sk "fusion_title".data 0 14 19 "Hello".data

/-- Id of the toggle-title segment (`Open`, sentinel span, ordinal 1). -/
def idT (sk : List Char) : List Char :=
  stable_id sk "fusion_toggle:title".data 1 (-1) (-1) "Open".data

/-- Id of the toggle-body segment (`World`, span [62, 67), ordinal 2). -/
def idW (sk : List Char) : List Char :=
  stable_id sk "fusion_toggle:body".data 2 62 67 "World".data

/-- The extracted body segment. -/
def hSeg (sk : List Char) : Segment :=
  ⟨idH sk, "fusion_title".data, some 14, some 19, none, "Hello".data⟩

/-- The extracted toggle-body segment (toggle_order 0). -/
def wSeg (sk : List Char) : Segment :=
  ⟨idW sk, "fusion_toggle:body".data, some 62, some 67, some 0, "World".data⟩

/-- The extracted toggle-title segment (toggle_order 0, no span). -/
def tSeg (sk : List Char) : Segment :=
  ⟨idT sk, "fusion_toggle:title".data, none, none, some 0, "Open".data⟩

/-- The extracted-id list, in extraction (sorted) order. -/
def c1exs (sk : List Char) : List ExSeg := [⟨idH sk⟩, ⟨idW sk⟩, ⟨idT sk⟩]

/-- The translated set of the scenario. -/
def c1tr (sk : List Char) : List TrSeg :=
  [⟨idH sk, "Bonjour".data⟩, ⟨idT sk, "Ouvert".data⟩, ⟨idW sk, "Monde".data⟩]

/-- The expected output document. -/
def c1out : List Char :=
  "[fusion_title]Bonjour[/fusion_title][fusion_toggle title=\"Ouvert\"]Monde[/fusion_toggle]".data

/-- The document after the offset replacements, before title
relocation. -/
def c1mid : List Char :=
  "[fusion_title]Bonjour[/fusion_title][fusion_toggle title=\"Open\"]Monde[/fusion_toggle]".data

/-- A hit of a later dict entry wins over earlier entries. -/
theorem lookupLast_cons_found (l : List TrSeg) (s : TrSeg) (k t : List Char)
    (hl : lookupLast l k = some t) : lookupLast (s :: l) k = some t := by
  simp only [lookupLast, hl]

/-- An entry with a different id does not affect the lookup. -/
theorem lookupLast_cons_ne (l : List TrSeg) (s : TrSeg) (k : List Char)
    (h : ¬(s.id = k)) : lookupLast (s :: l) k = lookupLast l k := by
  cases hl : lookupLast l k with
  | some t => simp only [lookupLast, hl]
  | none =>
    simp only [lookupLast, hl]
    rw [if_neg h]

/-- The first matching entry is returned when no later entry hits. -/
theorem lookupLast_cons_hit (l : List TrSeg) (s : TrSeg) (k : List Char)
    (hl : lookupLast l k = none) (h : s.id = k) :
    lookupLast (s :: l) k = some s.text := by
  simp only [lookupLast, hl]
  rw [if_pos h]

set_option maxRecDepth 200000 in
/-- C1: concrete scenario.  For every source key whose three derived
segment ids are pairwise distinct (which holds unless the truncated
SHA-1 digests collide), extracting the scenario document yields
exactly the three claimed segments — the body segment `Hello` with
real span [14, 19), the toggle-title segment `Open` with ordinal 0
and no span, and the toggle-body segment `World` with real span
[62, 67) and ordinal 0, in sorted order `Hello, World, Open` — and
applying the translated set `Bonjour / Ouvert / Monde` produces
exactly the claimed output document. -/
theorem C1_concrete_scenario (sk : List Char)
    (hHT : idH sk ≠ idT sk) (hHW : idH sk ≠ idW sk) (hTW : idT sk ≠ idW sk) :
    extract_segments c1doc sk = [hSeg sk, wSeg sk, tSeg sk] ∧
    cmd_apply_doc c1doc sk (c1exs sk) (c1tr sk) = .done c1out := by
  have hex : extract_segments c1doc sk = [hSeg sk, wSeg sk, tSeg sk] := rfl
  have lW : lookupLast (c1tr sk) (idW sk) = some "Monde".data := by
    apply lookupLast_cons_found
    apply lookupLast_cons_found
    exact lookupLast_cons_hit [] _ _ rfl rfl
  have lT : lookupLast (c1tr sk) (idT sk) = some "Ouvert".data := by
    apply lookupLast_cons_found
    apply lookupLast_cons_hit
    · rw [lookupLast_cons_ne _ _ _ (fun he => hTW he.symm)]
      rfl
    · rfl
  have lH : lookupLast (c1tr sk) (idH sk) = some "Bonjour".data := by
    apply lookupLast_cons_hit
    · rw [lookupLast_cons_ne _ _ _ (fun he => hHT he.symm),
          lookupLast_cons_ne _ _ _ (fun he => hHW he.symm)]
      rfl
    · rfl
  refine ⟨hex, ?_⟩
  have hm : List.filter (fun e => (lookupLast (c1tr sk) e.id).isNone) (c1exs sk) = [] := by
    rw [List.filter_eq_nil_iff]
    intro e he
    simp only [c1exs, List.mem_cons, List.not_mem_nil, or_false] at he
    rcases he with he | he | he <;> subst he <;> simp [lH, lW, lT]
  simp only [cmd_apply_doc]
  rw [if_neg (fun hcon => hcon hm)]
  rw [hex]
  have hsp : List.filter (fun s => s.start?.isSome && s.stop?.isSome)
      [hSeg sk, wSeg sk, tSeg sk] = [hSeg sk, wSeg sk] := rfl
  have hti : List.filter (fun s => s.kind == "fusion_toggle:title".data)
      [hSeg sk, wSeg sk, tSeg sk] = [tSeg sk] := rfl
  rw [hsp, hti]
  have hrev : ([hSeg sk, wSeg sk] : List Segment).reverse = [wSeg sk, hSeg sk] := rfl
  rw [hrev]
  have lW2 : lookupLast (c1tr sk) (wSeg sk).id = some "Monde".data := lW
  have lH2 : lookupLast (c1tr sk) (hSeg sk).id = some "Bonjour".data := lH
  have lT2 : lookupLast (c1tr sk) (tSeg sk).id = some "Ouvert".data := lT
  have hstep1 : applySpans (c1tr sk) [wSeg sk, hSeg sk] c1doc = .done c1mid := by
    simp only [applySpans]
    rw [lW2]
    simp only []
    rw [lH2]
    simp only []
    rfl
  rw [hstep1]
  simp only []
  have hstep2 : applyTitles (c1tr sk) [tSeg sk] c1mid = .done c1out := by
    simp only [applyTitles]
    rw [lT2]
    simp only []
    rfl
  exact hstep2

/-- The concrete source key of the C1 witness. -/
def c1key : List Char := "container_001.txt".data

set_option maxRecDepth 200000 in
/-- Witness for C1 at a concrete source key: the three ids are
computed and pairwise distinct, and the scenario holds. -/
theorem C1_concrete_scenario_witness :
    (idH c1key ≠ idT c1key ∧ idH c1key ≠ idW c1key ∧ idT c1key ≠ idW c1key) ∧
    (extract_segments c1doc c1key = [hSeg c1key, wSeg c1key, tSeg c1key] ∧
      cmd_apply_doc c1doc c1key (c1exs c1key) (c1tr c1key) = .done c1out) :=
  ⟨⟨by decide, by decide, by decide⟩,
    C1_concrete_scenario c1key (by decide) (by decide) (by decide)⟩

/-- UTF-8 of a concatenation is the concatenation of encodings (the
two `update` calls of the source concatenate the digest input). -/
theorem utf8_append (a b : List Char) : utf8 (a ++ b) = utf8 a ++ utf8 b := by
  induction a with
  | nil => rfl
  | cons c rest ih => simp [utf8, ih]

/-- A code point is below 0x110000. -/
theorem char_toNat_lt (c : Char) : c.toNat < 1114112 := by
  rcases c.valid with h | h
  · show c.val.toNat < 1114112
    omega
  · exact h.2

/-- One-byte encoding range of `utf8Char`. -/
theorem utf8Char_eq1 (c : Char) (h : c.toNat < 128) : utf8Char c = [c.toNat] := by
  simp [utf8Char, h]

/-- Two-byte encoding range of `utf8Char`. -/
theorem utf8Char_eq2 (c : Char) (h1 : ¬ c.toNat < 128) (h2 : c.toNat < 2048) :
    utf8Char c = [192 + c.toNat / 64, 128 + c.toNat % 64] := by
  simp [utf8Char, h1, h2]

/-- Three-byte encoding range of `utf8Char`. -/
theorem utf8Char_eq3 (c : Char) (h1 : ¬ c.toNat < 2048) (h2 : c.toNat < 65536) :
    utf8Char c = [224 + c.toNat / 4096, 128 + c.toNat / 64 % 64, 128 + c.toNat % 64] := by
  have h0 : ¬ c.toNat < 128 := by omega
  simp [utf8Char, h0, h1, h2]

/-- Four-byte encoding range of `utf8Char`. -/
theorem utf8Char_eq4 (c : Char) (h1 : ¬ c.toNat < 65536) :
    utf8Char c = [240 + c.toNat / 262144, 128 + c.toNat / 4096 % 64,
      128 + c.toNat / 64 % 64, 128 + c.toNat % 64] := by
  have h0 : ¬ c.toNat < 128 := by omega
  have h0b : ¬ c.toNat < 2048 := by omega
  simp [utf8Char, h0, h0b, h1]

/-- UTF-8 is a prefix code: equal streams starting with encoded
characters start with the same character. -/
theorem utf8Char_prefix_inj (a b : Char) (x y : List Nat)
    (h : utf8Char a ++ x = utf8Char b ++ y) : a = b ∧ x = y := by
  have ha := char_toNat_lt a
  have hb := char_toNat_lt b
  have htoNat : a.toNat = b.toNat → a = b := fun he => Char.ext (UInt32.ext he)
  by_cases ha1 : a.toNat < 128
  · by_cases hb1 : b.toNat < 128
    · rw [utf8Char_eq1 a ha1, utf8Char_eq1 b hb1] at h
      simp only [List.cons_append, List.cons.injEq] at h
      exact ⟨htoNat h.1, h.2⟩
    · by_cases hb2 : b.toNat < 2048
      · rw [utf8Char_eq1 a ha1, utf8Char_eq2 b hb1 hb2] at h
        simp only [List.cons_append, List.cons.injEq] at h
        exact absurd h.1 (by omega)
      · by_cases hb3 : b.toNat < 65536
        · rw [utf8Char_eq1 a ha1, utf8Char_eq3 b hb2 hb3] at h
          simp only [List.cons_append, List.cons.injEq] at h
          exact absurd h.1 (by omega)
        · rw [utf8Char_eq1 a ha1, utf8Char_eq4 b hb3] at h
          simp only [List.cons_append, List.cons.injEq] at h
          exact absurd h.1 (by omega)
  · by_cases ha2 : a.toNat < 2048
    · by_cases hb1 : b.toNat < 128
      · rw [utf8Char_eq2 a ha1 ha2, utf8Char_eq1 b hb1] at h
        simp only [List.cons_append, List.cons.injEq] at h
        exact absurd h.1 (by omega)
      · by_cases hb2 : b.toNat < 2048
        · rw [utf8Char_eq2 a ha1 ha2, utf8Char_eq2 b hb1 hb2] at h
          simp only [List.cons_append, List.cons.injEq] at h
          exact ⟨htoNat (by omega), h.2.2⟩
        · by_cases hb3 : b.toNat < 65536
          · rw [utf8Char_eq2 a ha1 ha2, utf8Char_eq3 b hb2 hb3] at h
            simp only [List.cons_append, List.cons.injEq] at h
            exact absurd h.1 (by omega)
          · rw [utf8Char_eq2 a ha1 ha2, utf8Char_eq4 b hb3] at h
            simp only [List.cons_append, List.cons.injEq] at h
            exact absurd h.1 (by omega)
    · by_cases ha3 : a.toNat < 65536
      · by_cases hb1 : b.toNat < 128
        · rw [utf8Char_eq3 a ha2 ha3, utf8Char_eq1 b hb1] at h
          simp only [List.cons_append, List.cons.injEq] at h
          exact absurd h.1 (by omega)
        · by_cases hb2 : b.toNat < 2048
          · rw [utf8Char_eq3 a ha2 ha3, utf8Char_eq2 b hb1 hb2] at h
            simp only [List.cons_append, List.cons.injEq] at h
            exact absurd h.1 (by omega)
          · by_cases hb3 : b.toNat < 65536
            · rw [utf8Char_eq3 a ha2 ha3, utf8Char_eq3 b hb2 hb3] at h
              simp only [List.cons_append, List.cons.injEq] at h
              exact ⟨htoNat (by omega), h.2.2.2⟩
            · rw [utf8Char_eq3 a ha2 ha3, utf8Char_eq4 b hb3] at h
              simp only [List.cons_append, List.cons.injEq] at h
              exact absurd h.1 (by omega)
      · by_cases hb1 : b.toNat < 128
        · rw [utf8Char_eq4 a ha3, utf8Char_eq1 b hb1] at h
          simp only [List.cons_append, List.cons.injEq] at h
          exact absurd h.1 (by omega)
        · by_cases hb2 : b.toNat < 2048
          · rw [utf8Char_eq4 a ha3, utf8Char_eq2 b hb1 hb2] at h
            simp only [List.cons_append, List.cons.injEq] at h
            exact absurd h.1 (by omega)
          · by_cases hb3 : b.toNat < 65536
            · rw [utf8Char_eq4 a ha3, utf8Char_eq3 b hb2 hb3] at h
              simp only [List.cons_append, List.cons.injEq] at h
              exact absurd h.1 (by omega)
            · rw [utf8Char_eq4 a ha3, utf8Char_eq4 b hb3] at h
              simp only [List.cons_append, List.cons.injEq] at h
              exact ⟨htoNat (by omega), h.2.2.2.2⟩

/-- UTF-8 encoding is injective. -/
theorem utf8_inj (l1 l2 : List Char) (h : utf8 l1 = utf8 l2) : l1 = l2 := by
  induction l1 generalizing l2 with
  | nil =>
    cases l2 with
    | nil => rfl
    | cons c rest =>
      exfalso
      have hne : utf8Char c ≠ [] := by
        simp only [utf8Char]
        split
        · simp
        split
        · simp
        split <;> simp
      rw [show utf8 ([] : List Char) = [] from rfl] at h
      rw [show utf8 (c :: rest) = utf8Char c ++ utf8 rest from rfl] at h
      cases hc : utf8Char c with
      | nil => exact hne hc
      | cons b bs => rw [hc] at h; simp at h
  | cons c rest ih =>
    cases l2 with
    | nil =>
      exfalso
      have hne : utf8Char c ≠ [] := by
        simp only [utf8Char]
        split
        · simp
        split
        · simp
        split <;> simp
      rw [show utf8 (c :: rest) = utf8Char c ++ utf8 rest from rfl] at h
      rw [show utf8 ([] : List Char) = [] from rfl] at h
      cases hc : utf8Char c with
      | nil => exact hne hc
      | cons b bs => rw [hc] at h; simp at h
    | cons c2 rest2 =>
      rw [show utf8 (c :: rest) = utf8Char c ++ utf8 rest from rfl,
          show utf8 (c2 :: rest2) = utf8Char c2 ++ utf8 rest2 from rfl] at h
      obtain ⟨he, ht⟩ := utf8Char_prefix_inj c c2 (utf8 rest) (utf8 rest2) h
      rw [he, ih rest2 ht]

/-! ## Injectivity of the digest message

`stable_id` hashes a single byte string built from its five inputs.
The lemmas below show that distinct inputs (with the other four held
fixed) always produce distinct byte strings, so ids can only collide
through a truncated SHA-1 collision; and that such collisions must
exist, because the id space is finite. -/

/-- The characters `'0'`–`'9'` decode back to their digit values. -/
theorem toNat_digitChar (d : Nat) (h : d < 10) : (Char.ofNat (48 + d)).toNat = 48 + d := by
  interval_cases d <;> decide

/-- The accumulator of `natDigitsAux` is a suffix of the result. -/
theorem natDigitsAux_append (fuel : Nat) : ∀ n acc,
    natDigitsAux fuel n acc = natDigitsAux fuel n [] ++ acc := by
  induction fuel with
  | zero => intro n acc; rfl
  | succ fuel ih =>
    intro n acc
    by_cases h : n < 10
    · simp [natDigitsAux, h]
    · simp only [natDigitsAux, h, if_false]
      rw [ih (n / 10) (Char.ofNat (48 + n % 10) :: acc), ih (n / 10) [Char.ofNat (48 + n % 10)]]
      simp

/-- One more unit of fuel than needed does not change the digits. -/
theorem natDigitsAux_fuel_succ : ∀ fuel n acc, 0 < fuel → n < 10 ^ fuel →
    natDigitsAux (fuel + 1) n acc = natDigitsAux fuel n acc := by
  intro fuel
  induction fuel with
  | zero => intro n acc h; omega
  | succ g ih =>
    intro n acc _ hlt
    by_cases h : n < 10
    · simp [natDigitsAux, h]
    · simp only [natDigitsAux, h, if_false]
      have hg : 0 < g := by
        rcases Nat.eq_zero_or_pos g with rfl | hg
        · simp at hlt; omega
        · exact hg
      have hq : n / 10 < 10 ^ g := by
        rw [Nat.div_lt_iff_lt_mul (by norm_num)]
        calc n < 10 ^ (g + 1) := hlt
        _ = 10 ^ g * 10 := by rw [pow_succ]
      exact ih (n / 10) _ hg hq

/-- Any sufficient amount of fuel yields the same digits. -/
theorem natDigitsAux_fuel_le (fuel1 fuel2 n : Nat) (acc : List Char) (h0 : 0 < fuel1)
    (hle : fuel1 ≤ fuel2) (hn : n < 10 ^ fuel1) :
    natDigitsAux fuel2 n acc = natDigitsAux fuel1 n acc := by
  obtain ⟨k, rfl⟩ := Nat.exists_eq_add_of_le hle
  induction k with
  | zero => rfl
  | succ k ih =>
    have h1 : n < 10 ^ (fuel1 + k) :=
      lt_of_lt_of_le hn (Nat.pow_le_pow_right (by norm_num) (by omega))
    rw [show fuel1 + (k + 1) = (fuel1 + k) + 1 by omega,
        natDigitsAux_fuel_succ (fuel1 + k) n acc (by omega) h1, ih (by omega)]

/-- `str(n)` for a single-digit number. -/
theorem natStr_lt10 (n : Nat) (h : n < 10) : natStr n = [Char.ofNat (48 + n)] := by
  simp [natStr, natDigitsAux, h, Nat.mod_eq_of_lt h]

/-- `str(n)` for a multi-digit number peels off the last digit. -/
theorem natStr_ge10 (n : Nat) (h : 10 ≤ n) :
    natStr n = natStr (n / 10) ++ [Char.ofNat (48 + n % 10)] := by
  have h1 : ¬ n < 10 := by omega
  have hstep : natStr n = natDigitsAux n (n / 10) [Char.ofNat (48 + n % 10)] := by
    simp [natStr, natDigitsAux, h1]
  rw [hstep, natDigitsAux_append]
  congr 1
  have hp : n / 10 < 10 ^ (n / 10 + 1) := by
    calc n / 10 < 10 ^ (n / 10) := Nat.lt_pow_self (by norm_num) _
    _ ≤ 10 ^ (n / 10 + 1) := Nat.pow_le_pow_right (by norm_num) (by omega)
  rw [natDigitsAux_fuel_le (n / 10 + 1) n (n / 10) [] (by omega) (by omega) hp]
  rfl

/-- Decoding the decimal rendering recovers the number. -/
theorem decodeDec_natStr : ∀ n, decodeDec (natStr n) = n := by
  intro n
  induction n using Nat.strong_induction_on with
  | _ n ih =>
    by_cases h : n < 10
    · rw [natStr_lt10 n h]
      simp [decodeDec, toNat_digitChar n h]
    · rw [natStr_ge10 n (by omega)]
      have hd : n / 10 < n := Nat.div_lt_self (by omega) (by norm_num)
      have hrec := ih (n / 10) hd
      simp only [decodeDec] at hrec ⊢
      rw [List.foldl_append]
      rw [hrec]
      simp only [List.foldl_cons, List.foldl_nil]
      rw [toNat_digitChar (n % 10) (Nat.mod_lt n (by norm_num))]
      omega

/-- Python `str` is injective on naturals. -/
theorem natStr_inj {m n : Nat} (h : natStr m = natStr n) : m = n := by
  have h2 := congrArg decodeDec h
  rwa [decodeDec_natStr, decodeDec_natStr] at h2

/-- Every character emitted by the digit renderer is `'0'`–`'9'`. -/
theorem natDigitsAux_chars (fuel : Nat) : ∀ n acc,
    (∀ c ∈ acc, 48 ≤ c.toNat ∧ c.toNat ≤ 57) →
    ∀ c ∈ natDigitsAux fuel n acc, 48 ≤ c.toNat ∧ c.toNat ≤ 57 := by
  induction fuel with
  | zero => intro n acc hacc; exact hacc
  | succ fuel ih =>
    intro n acc hacc c hc
    have hdig : 48 ≤ (Char.ofNat (48 + n % 10)).toNat ∧ (Char.ofNat (48 + n % 10)).toNat ≤ 57 := by
      rw [toNat_digitChar (n % 10) (Nat.mod_lt n (by norm_num))]
      omega
    by_cases h : n < 10
    · simp only [natDigitsAux, h, if_true] at hc
      rcases List.mem_cons.1 hc with rfl | hc
      · exact hdig
      · exact hacc c hc
    · simp only [natDigitsAux, h, if_false] at hc
      refine ih (n / 10) _ ?_ c hc
      intro c2 hc2
      rcases List.mem_cons.1 hc2 with rfl | hc2
      · exact hdig
      · exact hacc c2 hc2

/-- Every character of `str(n)` is a decimal digit. -/
theorem natStr_chars (n : Nat) : ∀ c ∈ natStr n, 48 ≤ c.toNat ∧ c.toNat ≤ 57 :=
  natDigitsAux_chars (n + 1) n [] (by intro c hc; simp at hc)

/-- The separator bar never occurs inside `str(n)`. -/
theorem bar_not_mem_natStr (n : Nat) : '|' ∉ natStr n := by
  intro hmem
  exact absurd (natStr_chars n '|' hmem).2 (by decide)

/-- The separator bar never occurs inside `str(i)`. -/
theorem bar_not_mem_intStr (i : Int) : '|' ∉ intStr i := by
  cases i with
  | ofNat n => exact bar_not_mem_natStr n
  | negSucc m =>
    intro hmem
    rcases List.mem_cons.1 hmem with h | h
    · exact absurd h (by decide)
    · exact bar_not_mem_natStr _ h

/-- Python `str` is injective on integers. -/
theorem intStr_inj {i j : Int} (h : intStr i = intStr j) : i = j := by
  cases i with
  | ofNat m =>
    cases j with
    | ofNat n =>
      simp only [intStr] at h
      rw [natStr_inj h]
    | negSucc n =>
      exfalso
      simp only [intStr] at h
      have hm : '-' ∈ natStr m := by rw [h]; exact List.mem_cons_self _ _
      exact absurd (natStr_chars m '-' hm).1 (by decide)
  | negSucc m =>
    cases j with
    | ofNat n =>
      exfalso
      simp only [intStr] at h
      have hm : '-' ∈ natStr n := by rw [← h]; exact List.mem_cons_self _ _
      exact absurd (natStr_chars n '-' hm).1 (by decide)
    | negSucc n =>
      simp only [intStr, List.cons.injEq, true_and] at h
      have h2 := natStr_inj h
      rw [show m = n from by omega]

/-- A string of the form `a ++ "|" ++ r` with bar-free `a` determines
both parts. -/
theorem barSplit : ∀ (a1 a2 r1 r2 : List Char), '|' ∉ a1 → '|' ∉ a2 →
    a1 ++ '|' :: r1 = a2 ++ '|' :: r2 → a1 = a2 ∧ r1 = r2 := by
  intro a1
  induction a1 with
  | nil =>
    intro a2 r1 r2 _ h2 h
    cases a2 with
    | nil => simpa using h
    | cons c a2' =>
      simp only [List.nil_append, List.cons_append, List.cons.injEq] at h
      obtain ⟨hc, -⟩ := h
      subst hc
      exact absurd (List.mem_cons_self _ _) h2
  | cons c a1' ih =>
    intro a2 r1 r2 h1 h2 h
    cases a2 with
    | nil =>
      simp only [List.cons_append, List.nil_append, List.cons.injEq] at h
      obtain ⟨hc, -⟩ := h
      subst hc
      exact absurd (List.mem_cons_self _ _) h1
    | cons d a2' =>
      simp only [List.cons_append, List.cons.injEq] at h
      obtain ⟨hc, ht⟩ := h
      subst hc
      have h1' : '|' ∉ a1' := fun hm => h1 (List.mem_cons_of_mem _ hm)
      have h2' : '|' ∉ a2' := fun hm => h2 (List.mem_cons_of_mem _ hm)
      obtain ⟨ha, hr⟩ := ih a2' r1 r2 h1' h2' ht
      exact ⟨by rw [ha], hr⟩

/-- The two `update` calls hash one concatenated byte string. -/
theorem idMessage_eq (sk kind : List Char) (idx : Nat) (st en : Int) (t : List Char) :
    idMessage sk kind idx st en t
      = utf8 ((sk ++ '|' :: kind ++ '|' :: natStr idx ++ '|' :: intStr st
          ++ '|' :: intStr en) ++ t) := by
  rw [utf8_append]
  rfl

/-- Equal digest messages force equal header-plus-text strings. -/
theorem idMessage_chars {sk1 kind1 t1 sk2 kind2 t2 : List Char} {idx1 idx2 : Nat}
    {st1 en1 st2 en2 : Int}
    (h : idMessage sk1 kind1 idx1 st1 en1 t1 = idMessage sk2 kind2 idx2 st2 en2 t2) :
    sk1 ++ ('|' :: (kind1 ++ ('|' :: (natStr idx1 ++ ('|' :: (intStr st1
        ++ ('|' :: (intStr en1 ++ t1))))))))
      = sk2 ++ ('|' :: (kind2 ++ ('|' :: (natStr idx2 ++ ('|' :: (intStr st2
        ++ ('|' :: (intStr en2 ++ t2)))))))) := by
  rw [idMessage_eq, idMessage_eq] at h
  have h2 := utf8_inj _ _ h
  simpa only [List.append_assoc, List.cons_append] using h2

/-- Changing only the text changes the digest message. -/
theorem idMessage_inj_text {sk kind t1 t2 : List Char} {idx : Nat} {st en : Int}
    (h : idMessage sk kind idx st en t1 = idMessage sk kind idx st en t2) : t1 = t2 := by
  have h2 := idMessage_chars h
  have h3 := List.append_cancel_left h2
  injection h3 with _ h4
  have h5 := List.append_cancel_left h4
  injection h5 with _ h6
  have h7 := List.append_cancel_left h6
  injection h7 with _ h8
  have h9 := List.append_cancel_left h8
  injection h9 with _ h10
  exact List.append_cancel_left h10

/-- Changing only the source key changes the digest message. -/
theorem idMessage_inj_sk {sk1 sk2 kind t : List Char} {idx : Nat} {st en : Int}
    (h : idMessage sk1 kind idx st en t = idMessage sk2 kind idx st en t) : sk1 = sk2 :=
  List.append_cancel_right (idMessage_chars h)

/-- Changing only the kind changes the digest message. -/
theorem idMessage_inj_kind {sk kind1 kind2 t : List Char} {idx : Nat} {st en : Int}
    (h : idMessage sk kind1 idx st en t = idMessage sk kind2 idx st en t) : kind1 = kind2 := by
  have h2 := idMessage_chars h
  have h3 := List.append_cancel_left h2
  injection h3 with _ h4
  exact List.append_cancel_right h4

/-- Changing only the index changes the digest message. -/
theorem idMessage_inj_idx {sk kind t : List Char} {idx1 idx2 : Nat} {st en : Int}
    (h : idMessage sk kind idx1 st en t = idMessage sk kind idx2 st en t) : idx1 = idx2 := by
  have h2 := idMessage_chars h
  have h3 := List.append_cancel_left h2
  injection h3 with _ h4
  have h5 := List.append_cancel_left h4
  injection h5 with _ h6
  exact natStr_inj (List.append_cancel_right h6)

/-- Changing only the offsets changes the digest message. -/
theorem idMessage_inj_offsets {sk kind t : List Char} {idx : Nat} {st1 en1 st2 en2 : Int}
    (h : idMessage sk kind idx st1 en1 t = idMessage sk kind idx st2 en2 t) :
    st1 = st2 ∧ en1 = en2 := by
  have h2 := idMessage_chars h
  have h3 := List.append_cancel_left h2
  injection h3 with _ h4
  have h5 := List.append_cancel_left h4
  injection h5 with _ h6
  have h7 := List.append_cancel_left h6
  injection h7 with _ h8
  obtain ⟨ha, hr⟩ := barSplit _ _ _ _ (bar_not_mem_intStr st1) (bar_not_mem_intStr st2) h8
  exact ⟨intStr_inj ha, intStr_inj (List.append_cancel_right hr)⟩

/-- The running state words of `sha1Chunks` stay below `2 ^ 32`. -/
theorem sha1Chunks_lt (fuel : Nat) : ∀ bs h0 h1 h2 h3 h4, h0 < 4294967296 → h1 < 4294967296 →
    (sha1Chunks fuel bs (h0, h1, h2, h3, h4)).1 < 4294967296 ∧
    (sha1Chunks fuel bs (h0, h1, h2, h3, h4)).2.1 < 4294967296 := by
  induction fuel with
  | zero => intro bs h0 h1 h2 h3 h4 hb0 hb1; exact ⟨hb0, hb1⟩
  | succ fuel ih =>
    intro bs h0 h1 h2 h3 h4 hb0 hb1
    cases bs with
    | nil => exact ⟨hb0, hb1⟩
    | cons b rest =>
      simp only [sha1Chunks]
      exact ih _ _ _ _ _ _ (Nat.mod_lt _ (by norm_num)) (Nat.mod_lt _ (by norm_num))

/-- The first two digest words are below `2 ^ 32`. -/
theorem sha1_lt (m : List Nat) : (sha1 m).1 < 4294967296 ∧ (sha1 m).2.1 < 4294967296 :=
  sha1Chunks_lt _ _ _ _ _ _ _ (by norm_num) (by norm_num)

/-- C5: refutation of the unconditional collision-freedom half of the
claim.  The id is 16 hex characters, so it determines at most the
first two 32-bit digest words; infinitely many texts map into that
finite space, so some two distinct texts (with all other inputs held
fixed) share an id. -/
theorem C5_counterexample :
    ¬ (∀ (sk kind : List Char) (idx : Nat) (st en : Int) (t1 t2 : List Char),
        t1 ≠ t2 → stable_id sk kind idx st en t1 ≠ stable_id sk kind idx st en t2) := by
  intro hall
  obtain ⟨n1, n2, hne, heq⟩ := Finite.exists_ne_map_eq_of_infinite
    (fun n : Nat =>
      ((⟨(sha1 (idMessage [] [] 0 0 0 (natStr n))).1, (sha1_lt _).1⟩ : Fin 4294967296),
       (⟨(sha1 (idMessage [] [] 0 0 0 (natStr n))).2.1, (sha1_lt _).2⟩ : Fin 4294967296)))
  simp only [Prod.mk.injEq, Fin.mk.injEq] at heq
  refine hall [] [] 0 0 0 (natStr n1) (natStr n2) (fun h => hne (natStr_inj h)) ?_
  show (wordHex8 (sha1 (idMessage [] [] 0 0 0 (natStr n1))).1
      ++ wordHex8 (sha1 (idMessage [] [] 0 0 0 (natStr n1))).2.1).take 16
    = (wordHex8 (sha1 (idMessage [] [] 0 0 0 (natStr n2))).1
      ++ wordHex8 (sha1 (idMessage [] [] 0 0 0 (natStr n2))).2.1).take 16
  rw [heq.1, heq.2]

/-- C5 (amended): the id generator is a pure function of its five
inputs, always returns a 16-character identifier equal to the
truncated hex digest of the message `source_key|kind|idx|start|end`
followed by the text, and changing exactly one of the five inputs
always changes the hashed message (so ids of such pairs differ
exactly when the truncated digests differ). -/
theorem C5_amended_stable_id :
    (∀ (sk kind : List Char) (idx : Nat) (st en : Int) (t : List Char),
      (stable_id sk kind idx st en t).length = 16) ∧
    (∀ (sk kind : List Char) (idx : Nat) (st en : Int) (t : List Char),
      stable_id sk kind idx st en t
        = (wordHex8 (sha1 (idMessage sk kind idx st en t)).1
            ++ wordHex8 (sha1 (idMessage sk kind idx st en t)).2.1).take 16) ∧
    (∀ (sk1 sk2 kind : List Char) (idx : Nat) (st en : Int) (t : List Char),
      idMessage sk1 kind idx st en t = idMessage sk2 kind idx st en t → sk1 = sk2) ∧
    (∀ (sk kind1 kind2 : List Char) (idx : Nat) (st en : Int) (t : List Char),
      idMessage sk kind1 idx st en t = idMessage sk kind2 idx st en t → kind1 = kind2) ∧
    (∀ (sk kind : List Char) (idx1 idx2 : Nat) (st en : Int) (t : List Char),
      idMessage sk kind idx1 st en t = idMessage sk kind idx2 st en t → idx1 = idx2) ∧
    (∀ (sk kind : List Char) (idx : Nat) (st1 en1 st2 en2 : Int) (t : List Char),
      idMessage sk kind idx st1 en1 t = idMessage sk kind idx st2 en2 t →
        st1 = st2 ∧ en1 = en2) ∧
    (∀ (sk kind : List Char) (idx : Nat) (st en : Int) (t1 t2 : List Char),
      idMessage sk kind idx st en t1 = idMessage sk kind idx st en t2 → t1 = t2) := by
  refine ⟨?_, ?_, ?_, ?_, ?_, ?_, ?_⟩
  · intro sk kind idx st en t
    simp [stable_id, wordHex8, List.length_take]
  · intro sk kind idx st en t
    rfl
  · intro sk1 sk2 kind idx st en t h
    exact idMessage_inj_sk h
  · intro sk kind1 kind2 idx st en t h
    exact idMessage_inj_kind h
  · intro sk kind idx1 idx2 st en t h
    exact idMessage_inj_idx h
  · intro sk kind idx st1 en1 st2 en2 t h
    exact idMessage_inj_offsets h
  · intro sk kind idx st en t1 t2 h
    exact idMessage_inj_text h

/-- Witness for the amended C5 theorem at concrete inputs. -/
theorem C5_amended_stable_id_witness :
    (stable_id "k".data "fusion_text".data 0 0 5 "Hello".data).length = 16 ∧
    "Hello".data = "Hello".data :=
  ⟨C5_amended_stable_id.1 "k".data "fusion_text".data 0 0 5 "Hello".data,
   C5_amended_stable_id.2.2.2.2.2.2 "k".data "fusion_text".data 0 0 5
     "Hello".data "Hello".data rfl⟩
